import Mathlib

/-!
Verification of the Asistenku response sanitization and voice-suitability
pipeline.  Strings are embedded as `List Char` (Unicode scalar values);
`jsLength` measures length in UTF-16 code units exactly as the source's
`String.prototype.length` does.  All definitions are translated from
`src/src/utils/api.ts` (the validating `APIClient`) and the `VoiceFormatter`
utility; each definition's doc comment names the source symbol it embeds.
-/

set_option maxRecDepth 10000

namespace Asistenku

/-- JavaScript whitespace (the set matched by `\s` and removed by
`String.prototype.trim`): tab, LF, VT, FF, CR, space, NBSP, Ogham space,
the U+2000..U+200A range, LS, PS, NNBSP, MMSP, ideographic space and BOM. -/
def jsWs (c : Char) : Bool :=
  let n := c.toNat
  n == 0x9 || n == 0xA || n == 0xB || n == 0xC || n == 0xD || n == 0x20 ||
  n == 0xA0 || n == 0x1680 || (0x2000 ≤ n && n ≤ 0x200A) ||
  n == 0x2028 || n == 0x2029 || n == 0x202F || n == 0x205F ||
  n == 0x3000 || n == 0xFEFF

/-- UTF-16 length contribution of one character (`2` for astral-plane
characters, which JavaScript stores as surrogate pairs). -/
def u16 (c : Char) : Nat := if c.toNat ≥ 0x10000 then 2 else 1

/-- Model of `String.prototype.length`: the length of the string in UTF-16 code
units. -/
def jsLength (s : List Char) : Nat := (s.map u16).sum

/-- Remove trailing characters satisfying `jsWs` (structurally recursive so
that concrete inputs evaluate by `decide`). -/
def trimEnd : List Char → List Char
  | [] => []
  | c :: r =>
    match trimEnd r with
    | [] => if jsWs c then [] else [c]
    | t => c :: t

/-- Model of `String.prototype.trim`: drop leading and trailing JS whitespace. -/
def trimJS (s : List Char) : List Char := trimEnd (s.dropWhile jsWs)

/-- Case-sensitive "the pattern is a prefix of `s`" test. -/
def startsWithCS : List Char → List Char → Bool
  | [], _ => true
  | _ :: _, [] => false
  | p :: ps, c :: cs => p == c && startsWithCS ps cs

/-- ASCII lower-casing, the case canonicalization relevant to the
(all-ASCII) patterns compiled with the `i` flag in the source. -/
def lowerA (c : Char) : Char :=
  if 'A' ≤ c ∧ c ≤ 'Z' then Char.ofNat (c.toNat + 32) else c

/-- Case-insensitive character comparison (ASCII folding). -/
def ciEqChar (a b : Char) : Bool := lowerA a == lowerA b

/-- Case-insensitive "the pattern is a prefix of `s`" test. -/
def ciStartsWith : List Char → List Char → Bool
  | [], _ => true
  | _ :: _, [] => false
  | p :: ps, c :: cs => ciEqChar p c && ciStartsWith ps cs

/-- Number of positions of `s` at which `pat` matches case-insensitively
(counting every start position, used to state span-occurrence
hypotheses). -/
def countCI (pat : List Char) : List Char → Nat
  | [] => 0
  | c :: r => (if ciStartsWith pat (c :: r) then 1 else 0) + countCI pat r

/-- Model of `response.match(/pat/g).length` for a literal pattern: the number of
non-overlapping left-to-right matches of `pat` in `s` (case-sensitive).
`fuel` bounds the scan; `jsCount` below supplies `fuel = s.length`, which
always suffices since every step consumes at least one character. -/
def jsCountGo (pat : List Char) : Nat → List Char → Nat
  | 0, _ => 0
  | _ + 1, [] => 0
  | fuel + 1, c :: r =>
    if startsWithCS pat (c :: r) then
      1 + jsCountGo pat fuel (r.drop (pat.length - 1))
    else jsCountGo pat fuel r

/-- Count of non-overlapping matches of `pat` in `s`, JS `match(//g)`
semantics. -/
def jsCount (pat s : List Char) : Nat := jsCountGo pat s.length s

/-- Model of `String.prototype.lastIndexOf(pat)`: index of the last occurrence of
`pat`, or `none` (JS `-1`).  Indices returned are character indices, which
agree with the source's UTF-16 indices at every use site because the source
only ever slices the string at a match boundary. -/
def lastIndexOfGo (pat : List Char) : List Char → Nat → Option Nat
  | [], _ => none
  | c :: r, i =>
    match lastIndexOfGo pat r (i + 1) with
    | some j => some j
    | none => if startsWithCS pat (c :: r) then some i else none

/-- The value of `s.lastIndexOf(pat)` as an optional character index. -/
def lastIndexOf (pat s : List Char) : Option Nat := lastIndexOfGo pat s 0

/-- JS `-1`-convention comparison used by
`lastOpenThink > lastCloseThink`. -/
def idxToInt : Option Nat → Int
  | none => -1
  | some n => (n : Int)

/-- JS `String.prototype.split(sep)` with a single-character separator
(empty fields are kept, `"".split` gives `[""]`). -/
def splitOnChar (sep : Char) : List Char → List (List Char)
  | [] => [[]]
  | c :: r =>
    if c == sep then [] :: splitOnChar sep r
    else
      match splitOnChar sep r with
      | [] => [[c]]
      | l :: ls => (c :: l) :: ls

/-- JS `String.prototype.split(/[class]+/)`: fields between maximal runs of
characters satisfying `p` (empty fields at the ends are kept).  Fuel-driven;
`fuel = s.length` suffices. -/
def splitRunsGo (p : Char → Bool) : Nat → List Char → List (List Char)
  | 0, s => [s]
  | _ + 1, [] => [[]]
  | fuel + 1, c :: r =>
    if p c then [] :: splitRunsGo p fuel (r.dropWhile p)
    else
      match splitRunsGo p fuel r with
      | [] => [[c]]
      | l :: ls => (c :: l) :: ls

/-- Split on maximal runs of characters satisfying `p`. -/
def splitRuns (p : Char → Bool) (s : List Char) : List (List Char) :=
  splitRunsGo p s.length s

/-- Shorthand turning a Lean string literal into the `List Char` embedding. -/
def str (s : String) : List Char := s.toList

/-! ## Model of `src/src/utils/api.ts` (validating `APIClient`) -/

/-- The three issue strings pushed by `APIClient.validateResponse`:
`"Incomplete <think> tags detected"`, `"Contains non-Indonesian characters"`
and `"Response appears to be truncated"`. -/
inductive Issue where
  | incompleteThinkTags
  | nonIndonesianChars
  | appearsTruncated
deriving DecidableEq

/-- Result of `APIClient.validateResponse`. -/
structure ValidationResult where
  isComplete : Bool
  cleaned : List Char
  issues : List Issue
deriving DecidableEq

/-- The literal `"<think>"`. -/
def openTag : List Char := str "<think>"

/-- The literal `"</think>"`. -/
def closeTag : List Char := str "</think>"

/-- CJK ideograph test `/[一-鿿]/.test(s)`. -/
def containsCJK (s : List Char) : Bool :=
  s.any fun c => 0x4E00 ≤ c.toNat && c.toNat ≤ 0x9FFF

/-- Model of the proper-ending test on `response.trim()`: since `trim` strips exactly the
`\s` characters, the test holds iff the trimmed string is nonempty and ends
in one of `.`, `!`, `?`, `。`. -/
def hasProperEnding (response : List Char) : Bool :=
  match (trimJS response).getLast? with
  | some c => c == '.' || c == '!' || c == '?' || c == Char.ofNat 0x3002
  | none => false

/-- Fixed clarification fallback `"Maaf, bisa tolong ulangi pertanyaannya?"`. -/
def clarifyFallback : List Char := str "Maaf, bisa tolong ulangi pertanyaannya?"

/-- The bare role-prefix artifact `"Asistenqu:"`. -/
def rolePrefixArtifact : List Char := str "Asistenqu:"

/-- The value `cleaned` holds after the unterminated-`<think>` truncation but
before the empty/role-prefix substitution (lines 123-141 of `api.ts`). -/
def preCleaned (response : List Char) : List Char :=
  let openCount := jsCount openTag response
  let closeCount := jsCount closeTag response
  if openCount > closeCount then
    let lastOpen := lastIndexOf openTag response
    let lastClose := lastIndexOf closeTag response
    if idxToInt lastOpen > idxToInt lastClose then
      match lastOpen with
      | some i => trimJS (response.take i)
      | none => trimJS response
    else trimJS response
  else trimJS response

/-- Model of `APIClient.validateResponse` (api.ts lines 117-173): counts `<think>` /
`</think>` matches, truncates at the last unmatched opener, flags CJK
characters and apparent truncation, and substitutes the clarification
fallback when the cleaned text is empty or the bare role prefix. -/
def validateResponse (response : List Char) : ValidationResult :=
  let openCount := jsCount openTag response
  let closeCount := jsCount closeTag response
  let issues : List Issue :=
    (if openCount > closeCount then [Issue.incompleteThinkTags] else []) ++
    (if containsCJK response then [Issue.nonIndonesianChars] else []) ++
    (if jsLength response > 50 ∧ hasProperEnding response = false ∧
        openCount ≠ closeCount then [Issue.appearsTruncated] else [])
  let cleaned0 := preCleaned response
  let cleaned :=
    if cleaned0 = [] ∨ cleaned0 = rolePrefixArtifact then clarifyFallback
    else cleaned0
  { isComplete := issues.isEmpty, cleaned := cleaned, issues := issues }

/-- Model of `ChatResponse` (`message`, `success`; the `error` string is not needed by
any claim). -/
structure ChatResponse where
  message : List Char
  success : Bool
deriving DecidableEq

/-- The fields of the backend's reply that the client reads: the generated
text and the optional continuation token. -/
structure OllamaResp where
  response : List Char
  context : Option (List Int)
deriving DecidableEq

/-- Outcome of one `fetch` to the generation backend: a parsed reply, or a
network/HTTP failure (the `catch` path). -/
inductive BackendReply where
  | ok (r : OllamaResp)
  | err
deriving DecidableEq

/-- Fixed fallback greeting `"Halo! Ada yang bisa saya bantu?"`. -/
def fallbackGreeting : List Char := str "Halo! Ada yang bisa saya bantu?"

/-- Keep characters in `U+0000-U+007F` or `U+00A0-U+00FF`: the complement of
the character class removed by the second `replace` in `sendSimpleMessage`
(its third range, `U+00C0-U+00FF`, is contained in `U+00A0-U+00FF`). -/
def latin1Keep (c : Char) : Bool :=
  c.toNat ≤ 0x7F || (0xA0 ≤ c.toNat && c.toNat ≤ 0xFF)

/-- The cleanup applied by `sendSimpleMessage` to the retry's raw text:
trim, remove CJK ideographs, then remove all non-Latin-1 characters. -/
def cleanSimple (s : List Char) : List Char :=
  ((trimJS s).filter fun c => !(0x4E00 ≤ c.toNat && c.toNat ≤ 0x9FFF)).filter
    latin1Keep

/-- The `context` field of the primary request body:
`this.context.length > 0 ? this.context : undefined`. -/
def primaryRequestContext (ctx : List Int) : Option (List Int) :=
  if ctx ≠ [] then some ctx else none

/-- The `context` field of the fallback request body built by
`sendSimpleMessage`: the field is absent (`undefined`). -/
def simpleRequestContext : Option (List Int) := none

/-- Model of `APIClient.sendSimpleMessage` (api.ts lines 255-323) as a function of the
stored continuation token and the backend's reply to the simplified request.
It returns the (unchanged) token together with the `ChatResponse`: on HTTP or
network failure the fixed greeting with `success := false`; otherwise the
trimmed reply stripped of non-Latin-1 characters, with the greeting
substituted if that leaves nothing.  The reply's own `context` is never read. -/
def sendSimpleMessage (ctx : List Int) (reply : BackendReply) :
    List Int × ChatResponse :=
  match reply with
  | .err => (ctx, { message := fallbackGreeting, success := false })
  | .ok r =>
    let cleanResponse := cleanSimple r.response
    (ctx,
      { message := if cleanResponse = [] then fallbackGreeting else cleanResponse
        success := true })

/-- Result of one `sendMessage` call: the `ChatResponse` returned to the
caller, the client's continuation token afterwards, and how many retry
(`sendSimpleMessage`) calls were issued. -/
structure SendOutcome where
  reply : ChatResponse
  ctx : List Int
  retryCalls : Nat
deriving DecidableEq

/-- The condition on which `sendMessage` retries (api.ts lines 227-231). -/
def seriousIssues (v : ValidationResult) : Bool :=
  !v.isComplete &&
    (v.issues.contains Issue.incompleteThinkTags ||
     v.issues.contains Issue.nonIndonesianChars)

/-- Model of `APIClient.sendMessage` (api.ts lines 175-252) as a function of the stored
continuation token and the backend's replies to the primary and (if issued)
retry requests.  On primary failure the `catch` path returns an empty message
with `success := false`.  On success the response is validated, the token is
updated from the primary reply (`if (data.context)`; a present-but-empty array
is JS-truthy, so any present field is stored), and on serious issues the
result of the single `sendSimpleMessage` call is returned. -/
def sendMessage (ctx : List Int) (primary retry : BackendReply) : SendOutcome :=
  match primary with
  | .err => { reply := { message := [], success := false }, ctx := ctx, retryCalls := 0 }
  | .ok r =>
    let validation := validateResponse r.response
    let ctx1 := r.context.getD ctx
    if seriousIssues validation then
      let (ctx2, rr) := sendSimpleMessage ctx1 retry
      { reply := rr, ctx := ctx2, retryCalls := 1 }
    else
      { reply := { message := validation.cleaned, success := true }, ctx := ctx1,
        retryCalls := 0 }

/-- Model of `AIConfig` (model/baseUrl omitted; `temperature` and `maxTokens` are JS
numbers, embedded as rationals — the source only ever applies `Math.min` /
`Math.max` to them, whose behaviour on (non-NaN) doubles coincides with the
rational order). -/
structure AIConfig where
  temperature : ℚ
  maxTokens : ℚ
deriving DecidableEq

/-- Model of `APIClient.validateConfig` (api.ts lines 37-43): clamp `maxTokens` up to
at least 1500 and `temperature` into `[0.1, 1.2]`. -/
def validateConfig (config : AIConfig) : AIConfig :=
  { config with
    maxTokens := max config.maxTokens 1500
    temperature := min (max config.temperature (1/10)) (12/10) }

/-- The configurations an `APIClient` can hold during its lifetime: the
constructor stores `validateConfig config`, and every `updateConfig` call
replaces it with `validateConfig config'` (api.ts lines 33-47). -/
inductive ConfigReachable : AIConfig → Prop
  | constructed (config : AIConfig) : ConfigReachable (validateConfig config)
  | updated (config : AIConfig) (prev : AIConfig) (h : ConfigReachable prev) :
      ConfigReachable (validateConfig config)

/-! ## Model of the `VoiceFormatter` utility (globals.css lines 640-992) -/

/-- Model of `VoiceFormatterConfig` (the `debug` flag only controls logging and cannot
affect the result, so it is omitted).  `maxLength` is `Option Nat`; JS
truthiness of `0` is modelled at the use site. -/
structure VoiceFormatterConfig where
  removeThinkTags : Bool
  removeMarkdown : Bool
  removeEmoticons : Bool
  normalizeNumbers : Bool
  normalizePunctuation : Bool
  maxLength : Option Nat
deriving DecidableEq

/-- Model of `DEFAULT_VOICE_CONFIG`: every stage enabled, `maxLength: 500`. -/
def DEFAULT_VOICE_CONFIG : VoiceFormatterConfig :=
  { removeThinkTags := true, removeMarkdown := true, removeEmoticons := true
    normalizeNumbers := true, normalizePunctuation := true, maxLength := some 500 }

/-- First case-sensitive occurrence of `pat`: the remainder after it, or
`none`. -/
def cutAfterCS (pat : List Char) : List Char → Option (List Char)
  | [] => none
  | c :: r =>
    if startsWithCS pat (c :: r) then some ((c :: r).drop pat.length)
    else cutAfterCS pat r

/-- First case-insensitive occurrence of `pat`: the remainder after it, or
`none`. -/
def cutAfterCI (pat : List Char) : List Char → Option (List Char)
  | [] => none
  | c :: r =>
    if ciStartsWith pat (c :: r) then some ((c :: r).drop pat.length)
    else cutAfterCI pat r

/-- Scanner for the first think pattern (standard pairs, non-greedy,
case-insensitive): at each `<think>` remove up to and including the nearest
following `</think>`; a pairless opener is left in place (the regex needs the
closer).  `fuel = input length` always suffices: every step consumes at least
one input character. -/
def thinkPairsGo : Nat → List Char → List Char
  | 0, s => s
  | _ + 1, [] => []
  | fuel + 1, c :: r =>
    if ciStartsWith openTag (c :: r) then
      match cutAfterCI closeTag ((c :: r).drop openTag.length) with
      | some rest => thinkPairsGo fuel rest
      | none => c :: thinkPairsGo fuel r
    else c :: thinkPairsGo fuel r

/-- The first think pattern of `removeThinkTags`. -/
def thinkPairs (s : List Char) : List Char := thinkPairsGo s.length s

/-- Scanner for the second think pattern (tags with attribute variations):
`<think`, then any run of non-`>` characters, then `>`, then non-greedily up
to `</think>`. -/
def thinkVariantsGo : Nat → List Char → List Char
  | 0, s => s
  | _ + 1, [] => []
  | fuel + 1, c :: r =>
    if ciStartsWith (str "<think") (c :: r) then
      match cutAfterCS [Char.ofNat 62] ((c :: r).drop 6) with
      | some afterGt =>
        match cutAfterCI closeTag afterGt with
        | some rest => thinkVariantsGo fuel rest
        | none => c :: thinkVariantsGo fuel r
      | none => c :: thinkVariantsGo fuel r
    else c :: thinkVariantsGo fuel r

/-- The second think pattern of `removeThinkTags`. -/
def thinkVariants (s : List Char) : List Char := thinkVariantsGo s.length s

/-- The third think pattern (unterminated block): remove from the first
case-insensitive `<think>` to the end of the text. -/
def thinkUnterminated : List Char → List Char
  | [] => []
  | c :: r =>
    if ciStartsWith openTag (c :: r) then [] else c :: thinkUnterminated r

/-- Skip JS whitespace, then require a colon; remainder after the colon. -/
def colonAfterWs : List Char → Option (List Char)
  | [] => none
  | c :: r =>
    if jsWs c then colonAfterWs r
    else if c == ':' then some r else none

/-- Remainder from the first `"\n\n"` (the pattern's lookahead leaves it in
place), or `[]` when there is none (the span runs to the end of text). -/
def skipToBlankLine : List Char → List Char
  | [] => []
  | c :: r =>
    if startsWithCS (str "\n\n") (c :: r) then c :: r else skipToBlankLine r

/-- Scanner for the fourth think pattern: `think`, optional whitespace, `:`,
then non-greedily up to a blank line or the end of text (no multiline flag,
so the span may cross single newlines). -/
def thinkColonGo : Nat → List Char → List Char
  | 0, s => s
  | _ + 1, [] => []
  | fuel + 1, c :: r =>
    if ciStartsWith (str "think") (c :: r) then
      match colonAfterWs ((c :: r).drop 5) with
      | some afterColon => thinkColonGo fuel (skipToBlankLine afterColon)
      | none => c :: thinkColonGo fuel r
    else c :: thinkColonGo fuel r

/-- The fourth think pattern of `removeThinkTags`. -/
def thinkColon (s : List Char) : List Char := thinkColonGo s.length s

/-- JS line terminators recognized by multiline `^` / `$` and excluded by
`.`: LF, CR, LS, PS. -/
def isLineTerm (c : Char) : Bool :=
  c == Char.ofNat 10 || c == Char.ofNat 13 ||
  c.toNat == 0x2028 || c.toNat == 0x2029

/-- Apply `f` to every line of `s` (maximal terminator-free segments),
keeping the terminators; models one pass of a multiline
line-start-to-line-end replacement.  One unit of fuel per line;
`s.length + 1` suffices. -/
def mapLinesGo (f : List Char → List Char) : Nat → List Char → List Char
  | 0, s => s
  | fuel + 1, s =>
    let line := s.takeWhile fun c => !isLineTerm c
    match s.drop line.length with
    | [] => f line
    | t :: r => f line ++ t :: mapLinesGo f fuel r

/-- Apply `f` to every line of `s`. -/
def mapLines (f : List Char → List Char) (s : List Char) : List Char :=
  mapLinesGo f (s.length + 1) s

/-- Whether the line has a case-insensitive occurrence of `pat`. -/
def lineContainsCI (pat : List Char) : List Char → Bool
  | [] => false
  | c :: r => ciStartsWith pat (c :: r) || lineContainsCI pat r

/-- The fifth think pattern restricted to one line: with the multiline flag,
the lazy span always ends at the first line end, so a line starting with
`think` (case-insensitively) is emptied. -/
def lineStartThink (line : List Char) : List Char :=
  if ciStartsWith (str "think") line then [] else line

/-- One line of `^.*?think.*?$` (gim): a line containing `think` is emptied. -/
def lineAnyThink (line : List Char) : List Char :=
  if lineContainsCI (str "think") line then [] else line

/-- One line of `Okay,.*?Let me.*?$` (gim): truncate at the first `Okay,`
that is followed by `Let me` on the same line. -/
def okayLetMeLine : List Char → List Char
  | [] => []
  | c :: r =>
    if ciStartsWith (str "okay,") (c :: r) &&
        lineContainsCI (str "let me") ((c :: r).drop 5) then []
    else c :: okayLetMeLine r

/-- One line of `I need to.*?$` (gim): truncate at the first `I need to`. -/
def iNeedToLine : List Char → List Char
  | [] => []
  | c :: r =>
    if ciStartsWith (str "i need to") (c :: r) then []
    else c :: iNeedToLine r

/-- One line of `First,.*?Then,.*?$` (gim): truncate at the first `First,`
that is followed by `Then,` on the same line. -/
def firstThenLine : List Char → List Char
  | [] => []
  | c :: r =>
    if ciStartsWith (str "first,") (c :: r) &&
        lineContainsCI (str "then,") ((c :: r).drop 6) then []
    else c :: firstThenLine r

/-- The stages of `removeThinkTags` that follow the unterminated-block
pattern: the `think:` pattern, the line-anchored fifth pattern, and the four
additional line-level heuristics, in source order. -/
def thinkLineHeuristics (x : List Char) : List Char :=
  mapLines firstThenLine (mapLines iNeedToLine (mapLines okayLetMeLine
    (mapLines lineAnyThink (mapLines lineStartThink (thinkColon x)))))

/-- Model of `VoiceFormatter.removeThinkTags` (globals.css lines 738-772): the five
think patterns in array order, then the four additional line-level
heuristics. -/
def removeThinkTags (text : List Char) : List Char :=
  if text = [] then text
  else thinkLineHeuristics (thinkUnterminated (thinkVariants (thinkPairs text)))

/-- The backtick character. -/
def tickChar : Char := Char.ofNat 96

/-- Split at the first occurrence of `ch`: the (possibly empty,
`ch`-free) part before it and the remainder after it. -/
def splitAtChar (ch : Char) : List Char → Option (List Char × List Char)
  | [] => none
  | c :: r =>
    if c == ch then some ([], r)
    else
      match splitAtChar ch r with
      | some (a, b) => some (c :: a, b)
      | none => none

/-- Scanner removing fenced code blocks (triple backtick to the nearest
triple backtick, content dropped). -/
def codeBlocksGo : Nat → List Char → List Char
  | 0, s => s
  | _ + 1, [] => []
  | fuel + 1, c :: r =>
    if startsWithCS [tickChar, tickChar, tickChar] (c :: r) then
      match cutAfterCS [tickChar, tickChar, tickChar] ((c :: r).drop 3) with
      | some rest => codeBlocksGo fuel rest
      | none => c :: codeBlocksGo fuel r
    else c :: codeBlocksGo fuel r

/-- Remove fenced code blocks. -/
def codeBlocks (s : List Char) : List Char := codeBlocksGo s.length s

/-- Scanner unwrapping inline code spans (backtick, one or more
non-backtick characters, backtick) to their content. -/
def inlineCodeGo : Nat → List Char → List Char
  | 0, s => s
  | _ + 1, [] => []
  | fuel + 1, c :: r =>
    if c == tickChar then
      match splitAtChar tickChar r with
      | some (inner, rest) =>
        if inner = [] then c :: inlineCodeGo fuel r
        else inner ++ inlineCodeGo fuel rest
      | none => c :: inlineCodeGo fuel r
    else c :: inlineCodeGo fuel r

/-- Unwrap inline code spans. -/
def inlineCode (s : List Char) : List Char := inlineCodeGo s.length s

/-- Scanner unwrapping a double-delimiter emphasis span
(`dd…dd` with delimiter-free nonempty content) to its content. -/
def unwrapDoubleGo (d : Char) : Nat → List Char → List Char
  | 0, s => s
  | _ + 1, [] => []
  | fuel + 1, c :: r =>
    if startsWithCS [d, d] (c :: r) then
      match splitAtChar d (r.drop 1) with
      | some (inner, t :: rest2) =>
        if inner ≠ [] && t == d then inner ++ unwrapDoubleGo d fuel rest2
        else c :: unwrapDoubleGo d fuel r
      | _ => c :: unwrapDoubleGo d fuel r
    else c :: unwrapDoubleGo d fuel r

/-- Unwrap `dd…dd` emphasis. -/
def unwrapDouble (d : Char) (s : List Char) : List Char :=
  unwrapDoubleGo d s.length s

/-- Scanner unwrapping a single-delimiter emphasis span (`d…d` with
delimiter-free nonempty content) to its content. -/
def unwrapSingleGo (d : Char) : Nat → List Char → List Char
  | 0, s => s
  | _ + 1, [] => []
  | fuel + 1, c :: r =>
    if c == d then
      match splitAtChar d r with
      | some (inner, rest) =>
        if inner ≠ [] then inner ++ unwrapSingleGo d fuel rest
        else c :: unwrapSingleGo d fuel r
      | none => c :: unwrapSingleGo d fuel r
    else c :: unwrapSingleGo d fuel r

/-- Unwrap `d…d` emphasis. -/
def unwrapSingle (d : Char) (s : List Char) : List Char :=
  unwrapSingleGo d s.length s

/-- Scanner unwrapping markdown links `[text](url)` to `text`. -/
def linksGo : Nat → List Char → List Char
  | 0, s => s
  | _ + 1, [] => []
  | fuel + 1, c :: r =>
    if c == '[' then
      match splitAtChar ']' r with
      | some (inner1, p :: rest2) =>
        if inner1 ≠ [] && p == '(' then
          match splitAtChar ')' rest2 with
          | some (inner2, rest3) =>
            if inner2 ≠ [] then inner1 ++ linksGo fuel rest3
            else c :: linksGo fuel r
          | none => c :: linksGo fuel r
        else c :: linksGo fuel r
      | _ => c :: linksGo fuel r
    else c :: linksGo fuel r

/-- Unwrap markdown links. -/
def links (s : List Char) : List Char := linksGo s.length s

/-- Generic scanner for a multiline line-anchored removal: at a line start,
`tryFn` returns the remainder after the matched prefix and the last
consumed character (whose line-terminator status decides whether the new
position is again a line start). -/
def lineAnchorGo (tryFn : List Char → Option (List Char × Char)) :
    Nat → Bool → List Char → List Char
  | 0, _, s => s
  | _ + 1, _, [] => []
  | fuel + 1, ls, c :: r =>
    if ls then
      match tryFn (c :: r) with
      | some (rest, lastC) => lineAnchorGo tryFn fuel (isLineTerm lastC) rest
      | none => c :: lineAnchorGo tryFn fuel (isLineTerm c) r
    else c :: lineAnchorGo tryFn fuel (isLineTerm c) r

/-- Run a line-anchored removal over the whole text (the start of text is a
line start). -/
def lineAnchor (tryFn : List Char → Option (List Char × Char))
    (s : List Char) : List Char :=
  lineAnchorGo tryFn s.length true s

/-- Heading prefix (one or more hashes then at least one whitespace
character, whitespace greedy and allowed to cross newlines). -/
def tryHeader (s : List Char) : Option (List Char × Char) :=
  let hashes := s.takeWhile fun c => c == '#'
  if hashes = [] then none
  else
    let afterH := s.drop hashes.length
    let ws := afterH.takeWhile jsWs
    match ws.getLast? with
    | none => none
    | some lastC => some (afterH.drop ws.length, lastC)

/-- List bullet prefix (optional whitespace, `-`/`*`/`+`, then at least one
whitespace character). -/
def tryBullet (s : List Char) : Option (List Char × Char) :=
  let ws0 := s.takeWhile jsWs
  match s.drop ws0.length with
  | b :: rest =>
    if b == '-' || b == '*' || b == '+' then
      let ws := rest.takeWhile jsWs
      match ws.getLast? with
      | none => none
      | some lastC => some (rest.drop ws.length, lastC)
    else none
  | [] => none

/-- Numbered-list prefix (digits, a dot, then at least one whitespace
character). -/
def tryNumbered (s : List Char) : Option (List Char × Char) :=
  let ds := s.takeWhile Char.isDigit
  if ds = [] then none
  else
    match s.drop ds.length with
    | c :: rest =>
      if c == '.' then
        let ws := rest.takeWhile jsWs
        match ws.getLast? with
        | none => none
        | some lastC => some (rest.drop ws.length, lastC)
      else none
    | [] => none

/-- Blockquote prefix (`>` then at least one whitespace character). -/
def tryBlockquote (s : List Char) : Option (List Char × Char) :=
  match s with
  | c :: rest =>
    if c == '>' then
      let ws := rest.takeWhile jsWs
      match ws.getLast? with
      | none => none
      | some lastC => some (rest.drop ws.length, lastC)
    else none
  | [] => none

/-- Model of `VoiceFormatter.removeMarkdown` (globals.css lines 777-804): code blocks,
inline code, headings, bold, italic, bold/italic underscores, links, list
bullets, numbered lists, blockquotes — in source order. -/
def removeMarkdown (text : List Char) : List Char :=
  let c1 := codeBlocks text
  let c2 := inlineCode c1
  let c3 := lineAnchor tryHeader c2
  let c4 := unwrapDouble '*' c3
  let c5 := unwrapSingle '*' c4
  let c6 := unwrapDouble '_' c5
  let c7 := unwrapSingle '_' c6
  let c8 := links c7
  let c9 := lineAnchor tryBullet c8
  let c10 := lineAnchor tryNumbered c9
  lineAnchor tryBlockquote c10

/-- Characters in the six Unicode emoji/pictograph ranges removed by
`removeEmoticons`. -/
def emojiRange (c : Char) : Bool :=
  let n := c.toNat
  (0x1F600 ≤ n && n ≤ 0x1F64F) || (0x1F300 ≤ n && n ≤ 0x1F5FF) ||
  (0x1F680 ≤ n && n ≤ 0x1F6FF) || (0x1F1E0 ≤ n && n ≤ 0x1F1FF) ||
  (0x2600 ≤ n && n ≤ 0x26FF) || (0x2700 ≤ n && n ≤ 0x27BF)

/-- The emoticon "eyes" class `[:;=]`. -/
def eyesChar (c : Char) : Bool := c == ':' || c == ';' || c == '='

/-- The emoticon "mouth" class (parens, brackets, braces, slashes and the
letters/symbols of the source's class, with literal `^` and `-`). -/
def mouthChar (c : Char) : Bool :=
  c == ')' || c == '(' || c == '[' || c == ']' ||
  c == Char.ofNat 123 || c == Char.ofNat 125 ||
  c == '|' || c == '\\' || c == '/' || c == 'D' || c == 'P' || c == 'p' ||
  c == 'o' || c == 'O' || c == '@' || c == '$' || c == '*' || c == '>' ||
  c == '<' || c == '^' || c == '-'

/-- Scanner for eyes-first emoticons `[:;=]-?[mouth]` (the optional dash
backtracks to a two-character match because `-` is itself in the mouth
class). -/
def faceEyesFirstGo : Nat → List Char → List Char
  | 0, s => s
  | _ + 1, [] => []
  | fuel + 1, c :: r =>
    if eyesChar c then
      match r with
      | d :: e :: rest =>
        if d == '-' && mouthChar e then faceEyesFirstGo fuel rest
        else if mouthChar d then faceEyesFirstGo fuel (e :: rest)
        else c :: faceEyesFirstGo fuel r
      | [d] =>
        if mouthChar d then [] else c :: faceEyesFirstGo fuel r
      | [] => c :: faceEyesFirstGo fuel r
    else c :: faceEyesFirstGo fuel r

/-- Remove eyes-first emoticons. -/
def faceEyesFirst (s : List Char) : List Char := faceEyesFirstGo s.length s

/-- Scanner for mouth-first emoticons `[mouth]-?[:;=]`. -/
def faceMouthFirstGo : Nat → List Char → List Char
  | 0, s => s
  | _ + 1, [] => []
  | fuel + 1, c :: r =>
    if mouthChar c then
      match r with
      | d :: e :: rest =>
        if d == '-' && eyesChar e then faceMouthFirstGo fuel rest
        else if eyesChar d then faceMouthFirstGo fuel (e :: rest)
        else c :: faceMouthFirstGo fuel r
      | [d] =>
        if eyesChar d then [] else c :: faceMouthFirstGo fuel r
      | [] => c :: faceMouthFirstGo fuel r
    else c :: faceMouthFirstGo fuel r

/-- Remove mouth-first emoticons. -/
def faceMouthFirst (s : List Char) : List Char := faceMouthFirstGo s.length s

/-- Model of `VoiceFormatter.removeEmoticons` (globals.css lines 809-823). -/
def removeEmoticons (text : List Char) : List Char :=
  let c1 := text.filter fun c => !emojiRange c
  faceMouthFirst (faceEyesFirst c1)

/-- Scanner rewriting a digit run followed by `%` to `digits persen`. -/
def percentGo : Nat → List Char → List Char
  | 0, s => s
  | _ + 1, [] => []
  | fuel + 1, c :: r =>
    if c.isDigit then
      let ds := (c :: r).takeWhile Char.isDigit
      match (c :: r).drop ds.length with
      | p :: rest =>
        if p == '%' then ds ++ str " persen" ++ percentGo fuel rest
        else c :: percentGo fuel r
      | [] => c :: percentGo fuel r
    else c :: percentGo fuel r

/-- Rewrite percentages. -/
def percent (s : List Char) : List Char := percentGo s.length s

/-- Scanner rewriting `Rp`, optional single whitespace, digit run to
`digits rupiah`. -/
def rupiahGo : Nat → List Char → List Char
  | 0, s => s
  | _ + 1, [] => []
  | fuel + 1, c :: r =>
    if startsWithCS (str "Rp") (c :: r) then
      let after := (c :: r).drop 2
      let body :=
        match after with
        | w :: rest1 => if jsWs w then rest1 else after
        | [] => []
      let ds := body.takeWhile Char.isDigit
      if ds = [] then c :: rupiahGo fuel r
      else ds ++ str " rupiah" ++ rupiahGo fuel (body.drop ds.length)
    else c :: rupiahGo fuel r

/-- Rewrite rupiah amounts. -/
def rupiah (s : List Char) : List Char := rupiahGo s.length s

/-- Scanner rewriting `$` followed by a digit run to `digits dollar`. -/
def dollarGo : Nat → List Char → List Char
  | 0, s => s
  | _ + 1, [] => []
  | fuel + 1, c :: r =>
    if c == '$' then
      let ds := r.takeWhile Char.isDigit
      if ds = [] then c :: dollarGo fuel r
      else ds ++ str " dollar" ++ dollarGo fuel (r.drop ds.length)
    else c :: dollarGo fuel r

/-- Rewrite dollar amounts. -/
def dollar (s : List Char) : List Char := dollarGo s.length s

/-- Model of `VoiceFormatter.normalizeNumbers` (globals.css lines 828-839). -/
def normalizeNumbers (text : List Char) : List Char :=
  dollar (rupiah (percent text))

/-- Scanner collapsing runs of `ch` of length at least `threshold` to
`emitN` copies (shorter runs are kept unchanged). -/
def collapseRunsGo (ch : Char) (threshold emitN : Nat) : Nat → List Char → List Char
  | 0, s => s
  | _ + 1, [] => []
  | fuel + 1, c :: r =>
    if c == ch then
      let run := (c :: r).takeWhile fun x => x == ch
      if threshold ≤ run.length then
        List.replicate emitN ch ++ collapseRunsGo ch threshold emitN fuel ((c :: r).drop run.length)
      else run ++ collapseRunsGo ch threshold emitN fuel ((c :: r).drop run.length)
    else c :: collapseRunsGo ch threshold emitN fuel r

/-- Collapse long runs of `ch`. -/
def collapseRuns (ch : Char) (threshold emitN : Nat) (s : List Char) : List Char :=
  collapseRunsGo ch threshold emitN s.length s

/-- JS `\w`: ASCII letters, digits and underscore. -/
def isWordChar (c : Char) : Bool :=
  ('A' ≤ c && c ≤ 'Z') || ('a' ≤ c && c ≤ 'z') ||
  ('0' ≤ c && c ≤ '9') || c == '_'

/-- Scanner for one word-boundary-safe case-insensitive abbreviation
replacement; `prev` is the previously scanned input character (boundaries
are judged on the input string, as in JS replace). -/
def replaceWordGo (abbr full : List Char) : Nat → Option Char → List Char → List Char
  | 0, _, s => s
  | _ + 1, _, [] => []
  | fuel + 1, prev, c :: r =>
    let boundaryBefore := match prev with | none => true | some p => !isWordChar p
    if boundaryBefore && ciStartsWith abbr (c :: r) then
      let matched := (c :: r).take abbr.length
      let rest := (c :: r).drop abbr.length
      let boundaryAfter := match rest with | [] => true | x :: _ => !isWordChar x
      if boundaryAfter then full ++ replaceWordGo abbr full fuel matched.getLast? rest
      else c :: replaceWordGo abbr full fuel (some c) r
    else c :: replaceWordGo abbr full fuel (some c) r

/-- Replace the whole word `abbr` (case-insensitively) by `full`. -/
def replaceWord (abbr full s : List Char) : List Char :=
  replaceWordGo abbr full s.length none s

/-- The fixed abbreviation dictionary, in object-literal order. -/
def abbreviationList : List (List Char × List Char) :=
  [(str "dll", str "dan lain lain"), (str "dsb", str "dan sebagainya"),
   (str "dst", str "dan seterusnya"), (str "yg", str "yang"),
   (str "dgn", str "dengan"), (str "utk", str "untuk"),
   (str "dr", str "dari"), (str "krn", str "karena"),
   (str "tdk", str "tidak"), (str "blm", str "belum"),
   (str "sdh", str "sudah"), (str "hrs", str "harus"),
   (str "kalo", str "kalau")]

/-- Model of `VoiceFormatter.normalizePunctuation` (globals.css lines 844-875):
collapse `!!`/`??` runs to one, `...` runs of three or more to exactly
three, then expand the abbreviation dictionary. -/
def normalizePunctuation (text : List Char) : List Char :=
  let c1 := collapseRuns '!' 2 1 text
  let c2 := collapseRuns '?' 2 1 c1
  let c3 := collapseRuns '.' 3 3 c2
  abbreviationList.foldl (fun acc p => replaceWord p.1 p.2 acc) c3

/-- Scanner collapsing every whitespace run to a single space. -/
def wsCollapseGo : Nat → List Char → List Char
  | 0, s => s
  | _ + 1, [] => []
  | fuel + 1, c :: r =>
    if jsWs c then ' ' :: wsCollapseGo fuel ((c :: r).dropWhile jsWs)
    else c :: wsCollapseGo fuel r

/-- Collapse whitespace runs to single spaces. -/
def wsCollapse (s : List Char) : List Char := wsCollapseGo s.length s

/-- Scanner collapsing every newline run to a single space. -/
def nlCollapseGo : Nat → List Char → List Char
  | 0, s => s
  | _ + 1, [] => []
  | fuel + 1, c :: r =>
    if c == Char.ofNat 10 then
      ' ' :: nlCollapseGo fuel ((c :: r).dropWhile fun x => x == Char.ofNat 10)
    else c :: nlCollapseGo fuel r

/-- Collapse newline runs to single spaces. -/
def nlCollapse (s : List Char) : List Char := nlCollapseGo s.length s

/-- The symbol set dropped as unsafe for speech. -/
def speechUnsafe (c : Char) : Bool :=
  c == '#' || c == '@' || c == '$' || c == '%' || c == '^' || c == '&' ||
  c == '*' || c == '+' || c == '=' || c == '[' || c == ']' ||
  c == Char.ofNat 123 || c == Char.ofNat 125 || c == '\\' || c == '|' ||
  c == '<' || c == '>'

/-- The quote characters dropped by cleanup (double quote, apostrophe,
backtick — the source's class repeats the double quote). -/
def quoteChar (c : Char) : Bool :=
  c.toNat == 34 || c.toNat == 39 || c.toNat == 96

/-- Scanner removing parenthesized content `(…)` up to the first closing
parenthesis (an unmatched `(` is kept). -/
def parensGo : Nat → List Char → List Char
  | 0, s => s
  | _ + 1, [] => []
  | fuel + 1, c :: r =>
    if c == '(' then
      match splitAtChar ')' r with
      | some (_, rest) => parensGo fuel rest
      | none => c :: parensGo fuel r
    else c :: parensGo fuel r

/-- Remove parenthesized content. -/
def parens (s : List Char) : List Char := parensGo s.length s

/-- Scanner removing URLs `https?://` followed by at least one
non-whitespace character. -/
def urlGo : Nat → List Char → List Char
  | 0, s => s
  | _ + 1, [] => []
  | fuel + 1, c :: r =>
    let afterScheme : Option (List Char) :=
      if startsWithCS (str "https://") (c :: r) then some ((c :: r).drop 8)
      else if startsWithCS (str "http://") (c :: r) then some ((c :: r).drop 7)
      else none
    match afterScheme with
    | some after =>
      let run := after.takeWhile fun x => !jsWs x
      if run = [] then c :: urlGo fuel r
      else urlGo fuel (after.drop run.length)
    | none => c :: urlGo fuel r

/-- Remove URLs. -/
def urls (s : List Char) : List Char := urlGo s.length s

/-- Scanner collapsing whitespace runs of length at least two to a single
space (single whitespace characters are kept as they are). -/
def multiSpaceGo : Nat → List Char → List Char
  | 0, s => s
  | _ + 1, [] => []
  | fuel + 1, c :: r =>
    if jsWs c then
      let run := (c :: r).takeWhile jsWs
      if 2 ≤ run.length then ' ' :: multiSpaceGo fuel ((c :: r).drop run.length)
      else c :: multiSpaceGo fuel r
    else c :: multiSpaceGo fuel r

/-- Collapse multi-whitespace runs. -/
def multiSpace (s : List Char) : List Char := multiSpaceGo s.length s

/-- Model of `VoiceFormatter.cleanupText` (globals.css lines 880-903). -/
def cleanupText (text : List Char) : List Char :=
  let c1 := wsCollapse text
  let c2 := nlCollapse c1
  let c3 := c2.filter fun c => !speechUnsafe c
  let c4 := c3.filter fun c => !quoteChar c
  let c5 := parens c4
  let c6 := urls c5
  multiSpace c6

/-- The sentence-terminator class `[.!?]` used by `limitLength`. -/
def isSentPunct (c : Char) : Bool := c == '.' || c == '!' || c == '?'

/-- The sentence-accumulation loop of `limitLength`: skip blank sentences,
stop before the sentence that would push the running result (plus its
terminating period — the joining space is not counted, matching the source)
past the limit. -/
def sentLoop (maxLength : Nat) : List (List Char) → List Char → List Char
  | [], acc => acc
  | s :: rest, acc =>
    if trimJS s = [] then sentLoop maxLength rest acc
    else if maxLength < jsLength (acc ++ trimJS s ++ ['.']) then acc
    else
      sentLoop maxLength rest
        (acc ++ (if acc = [] then [] else [' ']) ++ trimJS s ++ ['.'])

/-- The word-accumulation fallback loop of `limitLength`. -/
def wordLoop (maxLength : Nat) : List (List Char) → List Char → List Char
  | [], acc => acc
  | w :: rest, acc =>
    if jsLength acc < maxLength then
      if maxLength < jsLength (acc ++ ' ' :: w) then acc
      else wordLoop maxLength rest (acc ++ (if acc = [] then [] else [' ']) ++ w)
    else acc

/-- Model of `substring(0, n)` measured in UTF-16 units.  (JS would keep a lone
surrogate when the cut splits an astral character; this model drops the
straddling character instead — both stay within `n` units.) -/
def takeU16 : Nat → List Char → List Char
  | _, [] => []
  | n, c :: r => if u16 c ≤ n then c :: takeU16 (n - u16 c) r else []

/-- The value of `result` after both accumulation stages of `limitLength`
(the word fallback runs only when the sentence stage produced nothing, and
always appends a period). -/
def limitResult (maxLength : Nat) (text : List Char) : List Char :=
  if sentLoop maxLength (splitRuns isSentPunct text) [] = []
  then wordLoop maxLength (splitOnChar ' ' text) [] ++ ['.']
  else sentLoop maxLength (splitRuns isSentPunct text) []

/-- Model of `VoiceFormatter.limitLength` (globals.css lines 908-941): texts within
the limit pass through; otherwise whole sentences are accumulated, then
whole words, and `result || text.substring(0, maxLength)` falls back to a
hard cut only if both stages produced nothing. -/
def limitLength (text : List Char) (maxLength : Nat) : List Char :=
  if jsLength text ≤ maxLength then text
  else if limitResult maxLength text ≠ [] then limitResult maxLength text
  else takeU16 maxLength text

/-- Model of `VoiceFormatter.formatForVoice` (globals.css lines 675-733): the
config-gated pipeline, the cleanup stage, the optional length bound
(`if (this.config.maxLength)` is false for an absent or zero bound), and a
final trim. -/
def formatForVoice (cfg : VoiceFormatterConfig) (text : List Char) : List Char :=
  let t1 := if cfg.removeThinkTags then removeThinkTags text else text
  let t2 := if cfg.removeMarkdown then removeMarkdown t1 else t1
  let t3 := if cfg.removeEmoticons then removeEmoticons t2 else t2
  let t4 := if cfg.normalizeNumbers then normalizeNumbers t3 else t3
  let t5 := if cfg.normalizePunctuation then normalizePunctuation t4 else t4
  let t6 := cleanupText t5
  let t7 :=
    match cfg.maxLength with
    | some n => if n = 0 then t6 else limitLength t6 n
    | none => t6
  trimJS t7

/-- The "readable" character class `[\w\s.,!?]` of `isSuitableForVoice`. -/
def readableChar (c : Char) : Bool :=
  isWordChar c || jsWs c || c == '.' || c == ',' || c == '!' || c == '?'

/-- Model of `VoiceFormatter.isSuitableForVoice` (globals.css lines 946-957): false on
an empty (trimmed) formatted text, otherwise true iff readable characters
make up strictly more than half of the formatted text.  (The source compares
`readable / total > 0.5` in doubles; for `total ≤ 2^52` the rounded quotient
is on the same side of `0.5` as the exact one, so the integer comparison is
exact.) -/
def isSuitableForVoice (cfg : VoiceFormatterConfig) (text : List Char) : Bool :=
  let formatted := formatForVoice cfg text
  if trimJS formatted = [] then false
  else
    let readableChars := jsLength (formatted.filter readableChar)
    let totalChars := jsLength formatted
    decide (0 < totalChars) && decide (totalChars < 2 * readableChars)

/-- The exported `isVoiceSuitable` helper: the singleton formatter holds
`DEFAULT_VOICE_CONFIG` (its `debug := true` only logs). -/
def isVoiceSuitable (text : List Char) : Bool :=
  isSuitableForVoice DEFAULT_VOICE_CONFIG text

/-- No case-insensitive match of `pat` starts at any position of `s`. -/
def NoCIMatch (pat s : List Char) : Prop :=
  ∀ i, ciStartsWith pat (s.drop i) = false

/-! ### Canonical sanitized text

A deliberately narrow class of inputs on which every pipeline stage acts as
the identity: strings over the single representative word character `a`,
periods and single separating spaces, trimmed, with no ellipsis runs, and a
length within the configured bound.  The restriction to one letter is
essential, not cosmetic: on general word-character strings the sanitizer is
not the identity and not even idempotent — abbreviation expansion rewrites
`tdk` to `tidak`, a line containing `think` is emptied by the reasoning
heuristics, and re-truncation breaks idempotence within the length bound
(these failures are proved alongside the positive statement below). -/

/-- Characters of canonical sanitized text: only the representative word
character `a` (general letters are excluded because the abbreviation
dictionary and the `think`/`I need to` line heuristics rewrite strings
containing them), plus the period and the space. -/
def canonChar (c : Char) : Bool := c == 'a' || c == '.' || c == ' '

/-- No two adjacent spaces. -/
def noDoubleSpace : List Char → Bool
  | c :: d :: r => !(c == ' ' && d == ' ') && noDoubleSpace (d :: r)
  | _ => true

/-- No three adjacent periods. -/
def noTripleDot : List Char → Bool
  | c :: d :: e :: r => !(c == '.' && d == '.' && e == '.') && noTripleDot (d :: e :: r)
  | _ => true

/-- The text fits in the configured maximum length (trivially true when no
bound is configured). -/
def withinBound (cfg : VoiceFormatterConfig) (s : List Char) : Bool :=
  match cfg.maxLength with
  | some n => decide (jsLength s ≤ n)
  | none => true

/-- Canonical sanitized text for a given configuration. -/
def Canonical (cfg : VoiceFormatterConfig) (s : List Char) : Prop :=
  (∀ c ∈ s, canonChar c = true) ∧ noDoubleSpace s = true ∧
  noTripleDot s = true ∧ trimJS s = s ∧ withinBound cfg s = true

/-! ## Supporting lemmas about the validator and retry controller -/

theorem validateResponse_isComplete (r : List Char) :
    (validateResponse r).isComplete = (validateResponse r).issues.isEmpty := rfl

theorem validateResponse_issues (r : List Char) :
    (validateResponse r).issues =
      (if jsCount openTag r > jsCount closeTag r
        then [Issue.incompleteThinkTags] else []) ++
      (if containsCJK r then [Issue.nonIndonesianChars] else []) ++
      (if jsLength r > 50 ∧ hasProperEnding r = false ∧
          jsCount openTag r ≠ jsCount closeTag r
        then [Issue.appearsTruncated] else []) := rfl

theorem validateResponse_cleaned (r : List Char) :
    (validateResponse r).cleaned =
      if preCleaned r = [] ∨ preCleaned r = rolePrefixArtifact
      then clarifyFallback else preCleaned r := rfl

/-- The retry trigger fires exactly when one of the two serious issues was
recorded (for actual validator outputs, whose `isComplete` field is the
emptiness of `issues`). -/
theorem seriousIssues_validate (r : List Char) :
    seriousIssues (validateResponse r) = true ↔
      Issue.incompleteThinkTags ∈ (validateResponse r).issues ∨
      Issue.nonIndonesianChars ∈ (validateResponse r).issues := by
  unfold seriousIssues
  rw [validateResponse_isComplete]
  simp only [Bool.and_eq_true, Bool.or_eq_true, Bool.not_eq_true',
    List.isEmpty_eq_false_iff_exists_mem, List.contains_eq_any_beq,
    List.any_eq_true, beq_iff_eq]
  constructor
  · rintro ⟨-, h2⟩
    rcases h2 with ⟨x, hx, rfl⟩ | ⟨x, hx, rfl⟩
    · exact Or.inl hx
    · exact Or.inr hx
  · intro h
    rcases h with h | h
    · exact ⟨⟨_, h⟩, Or.inl ⟨_, h, rfl⟩⟩
    · exact ⟨⟨_, h⟩, Or.inr ⟨_, h, rfl⟩⟩

theorem sendMessage_ok (ctx : List Int) (r : OllamaResp) (retry : BackendReply) :
    sendMessage ctx (.ok r) retry =
      if seriousIssues (validateResponse r.response) then
        { reply := (sendSimpleMessage (r.context.getD ctx) retry).2
          ctx := (sendSimpleMessage (r.context.getD ctx) retry).1
          retryCalls := 1 }
      else
        { reply := { message := (validateResponse r.response).cleaned, success := true }
          ctx := r.context.getD ctx
          retryCalls := 0 } := by
  unfold sendMessage
  dsimp only

theorem sendSimpleMessage_fst (ctx : List Int) (reply : BackendReply) :
    (sendSimpleMessage ctx reply).1 = ctx := by
  unfold sendSimpleMessage
  cases reply <;> rfl

/-! ## Supporting lemmas about the sanitizer -/

theorem u16_pos (c : Char) : 1 ≤ u16 c := by
  unfold u16; split <;> norm_num

theorem jsLength_nil : jsLength [] = 0 := rfl

theorem jsLength_cons (c : Char) (s : List Char) :
    jsLength (c :: s) = u16 c + jsLength s := by
  simp [jsLength]

theorem jsLength_append (a b : List Char) :
    jsLength (a ++ b) = jsLength a + jsLength b := by
  simp [jsLength]

theorem jsLength_pos (s : List Char) (h : s ≠ []) : 0 < jsLength s := by
  cases s with
  | nil => exact absurd rfl h
  | cons c r =>
    rw [jsLength_cons]
    have := u16_pos c
    omega

theorem jsLength_dropWhile_le (p : Char → Bool) (s : List Char) :
    jsLength (s.dropWhile p) ≤ jsLength s := by
  induction s with
  | nil => simp
  | cons c r ih =>
    rw [List.dropWhile_cons]
    split
    · rw [jsLength_cons]; omega
    · exact le_refl _

theorem jsLength_trimEnd_le (s : List Char) :
    jsLength (trimEnd s) ≤ jsLength s := by
  induction s with
  | nil => simp [trimEnd]
  | cons c r ih =>
    rw [trimEnd]
    cases htr : trimEnd r with
    | nil =>
      by_cases hc : jsWs c = true
      · rw [if_pos hc]
        exact Nat.zero_le _
      · rw [if_neg hc]
        simp only [jsLength_cons, jsLength_nil]
        omega
    | cons d t =>
      rw [htr] at ih
      simp only [jsLength_cons] at ih ⊢
      omega

theorem jsLength_trimJS_le (s : List Char) :
    jsLength (trimJS s) ≤ jsLength s := by
  unfold trimJS
  exact le_trans (jsLength_trimEnd_le _) (jsLength_dropWhile_le _ _)

theorem dropWhile_dropWhile (p : Char → Bool) (l : List Char) :
    (l.dropWhile p).dropWhile p = l.dropWhile p := by
  induction l with
  | nil => simp
  | cons c r ih =>
    rw [List.dropWhile_cons]
    split
    · exact ih
    · rw [List.dropWhile_cons]
      simp_all

theorem dropWhile_trimEnd (l : List Char) (h : l.dropWhile jsWs = l) :
    (trimEnd l).dropWhile jsWs = trimEnd l := by
  cases l with
  | nil => simp [trimEnd]
  | cons c r =>
    have hc : ¬ jsWs c = true := by
      intro hc
      rw [List.dropWhile_cons_of_pos hc] at h
      have h1 := congrArg List.length h
      have h2 : (r.dropWhile jsWs).length ≤ r.length :=
        (List.dropWhile_sublist jsWs).length_le
      simp at h1
      omega
    rw [trimEnd]
    cases htr : trimEnd r with
    | nil =>
      rw [if_neg hc]
      exact List.dropWhile_cons_of_neg hc
    | cons d t =>
      exact List.dropWhile_cons_of_neg hc

theorem trimEnd_trimEnd (l : List Char) : trimEnd (trimEnd l) = trimEnd l := by
  induction l with
  | nil => rfl
  | cons c r ih =>
    rw [trimEnd]
    cases htr : trimEnd r with
    | nil =>
      by_cases hc : jsWs c = true
      · rw [if_pos hc]; rfl
      · rw [if_neg hc]
        show trimEnd [c] = [c]
        rw [trimEnd]
        show (if jsWs c = true then [] else [c]) = [c]
        exact if_neg hc
    | cons d t =>
      rw [htr] at ih
      show trimEnd (c :: d :: t) = c :: d :: t
      rw [trimEnd, ih]

theorem trimJS_trimJS (s : List Char) : trimJS (trimJS s) = trimJS s := by
  unfold trimJS
  rw [dropWhile_trimEnd _ (dropWhile_dropWhile jsWs s), trimEnd_trimEnd]

theorem formatForVoice_trimmed (cfg : VoiceFormatterConfig) (t : List Char) :
    trimJS (formatForVoice cfg t) = formatForVoice cfg t := by
  unfold formatForVoice
  exact trimJS_trimJS _

theorem sentLoop_le (m : Nat) (l : List (List Char)) (acc : List Char)
    (h : jsLength acc ≤ m + 1) : jsLength (sentLoop m l acc) ≤ m + 1 := by
  induction l generalizing acc with
  | nil => simpa [sentLoop] using h
  | cons s rest ih =>
    rw [sentLoop]
    split
    · exact ih acc h
    · split
      · exact h
      · rename_i hov
        rw [not_lt, jsLength_append, jsLength_append] at hov
        apply ih
        rw [jsLength_append, jsLength_append, jsLength_append]
        have hdot : jsLength ['.'] = 1 := rfl
        rw [hdot] at hov ⊢
        split
        · rw [jsLength_nil]; omega
        · have hsp : jsLength [' '] = 1 := rfl
          rw [hsp]; omega

theorem wordLoop_le (m : Nat) (l : List (List Char)) (acc : List Char)
    (h : jsLength acc ≤ m) : jsLength (wordLoop m l acc) ≤ m := by
  induction l generalizing acc with
  | nil => simpa [wordLoop] using h
  | cons w rest ih =>
    rw [wordLoop]
    split
    · split
      · exact h
      · rename_i hov
        rw [not_lt, jsLength_append, jsLength_cons] at hov
        have hu : u16 ' ' = 1 := rfl
        rw [hu] at hov
        apply ih
        rw [jsLength_append, jsLength_append]
        split
        · rw [jsLength_nil]; omega
        · have hsp : jsLength [' '] = 1 := rfl
          rw [hsp]; omega
    · exact h

theorem takeU16_le (n : Nat) (s : List Char) : jsLength (takeU16 n s) ≤ n := by
  induction s generalizing n with
  | nil => simp [takeU16, jsLength_nil]
  | cons c r ih =>
    rw [takeU16]
    split
    · rw [jsLength_cons]
      have := ih (n - u16 c)
      omega
    · simp [jsLength_nil]

theorem limitResult_le (m : Nat) (t : List Char) :
    jsLength (limitResult m t) ≤ m + 1 := by
  unfold limitResult
  split
  · rw [jsLength_append]
    have h1 : jsLength ['.'] = 1 := rfl
    have h2 := wordLoop_le m (splitOnChar ' ' t) [] (by simp [jsLength_nil])
    omega
  · exact sentLoop_le m _ [] (by simp [jsLength_nil])

theorem limitLength_le (t : List Char) (n : Nat) :
    jsLength (limitLength t n) ≤ n + 1 := by
  unfold limitLength
  split
  · omega
  · split
    · exact limitResult_le n t
    · have := takeU16_le n t
      omega

/-! ## Supporting lemmas for the reasoning-span claims -/

theorem NoCIMatch.tail {pat : List Char} {c : Char} {r : List Char}
    (h : NoCIMatch pat (c :: r)) : NoCIMatch pat r := fun i => by
  have := h (i + 1)
  rwa [List.drop_succ_cons] at this

theorem NoCIMatch.head {pat : List Char} {c : Char} {r : List Char}
    (h : NoCIMatch pat (c :: r)) : ciStartsWith pat (c :: r) = false := by
  have := h 0
  rwa [List.drop_zero] at this

theorem NoCIMatch.dropN {pat s : List Char} (h : NoCIMatch pat s) (k : Nat) :
    NoCIMatch pat (s.drop k) := fun i => by
  rw [List.drop_drop]
  exact h (k + i)

theorem ciStartsWith_nil_false (p : Char) (ps : List Char) :
    ciStartsWith (p :: ps) [] = false := rfl

theorem noCIMatch_of_bounded {pat s : List Char} (hp : pat ≠ [])
    (h : ∀ i, i < s.length → ciStartsWith pat (s.drop i) = false) :
    NoCIMatch pat s := by
  intro i
  by_cases hi : i < s.length
  · exact h i hi
  · rw [List.drop_eq_nil_of_le (by omega)]
    cases pat with
    | nil => exact absurd rfl hp
    | cons p ps => rfl

theorem cutAfterCI_eq_none {pat t : List Char} (h : NoCIMatch pat t) :
    cutAfterCI pat t = none := by
  induction t with
  | nil => rfl
  | cons c r ih =>
    rw [cutAfterCI, if_neg (by simp [h.head])]
    exact ih h.tail

theorem cutAfterCS_eq_drop {pat t u : List Char} (h : cutAfterCS pat t = some u) :
    ∃ k, u = t.drop k := by
  induction t generalizing u with
  | nil => exact absurd h (by rw [cutAfterCS]; simp)
  | cons c r ih =>
    rw [cutAfterCS] at h
    split at h
    · exact ⟨pat.length, (Option.some.inj h).symm⟩
    · obtain ⟨k, hk⟩ := ih h
      exact ⟨k + 1, by rw [hk, List.drop_succ_cons]⟩

theorem thinkPairsGo_id (fuel : Nat) (s : List Char) (h : NoCIMatch closeTag s) :
    thinkPairsGo fuel s = s := by
  induction fuel generalizing s with
  | zero => rfl
  | succ f ih =>
    cases s with
    | nil => rfl
    | cons c r =>
      rw [thinkPairsGo]
      have hcut : cutAfterCI closeTag ((c :: r).drop openTag.length) = none :=
        cutAfterCI_eq_none (h.dropN _)
      rw [hcut]
      split
      · exact congrArg (c :: ·) (ih r h.tail)
      · exact congrArg (c :: ·) (ih r h.tail)

theorem thinkVariantsGo_id (fuel : Nat) (s : List Char) (h : NoCIMatch closeTag s) :
    thinkVariantsGo fuel s = s := by
  induction fuel generalizing s with
  | zero => rfl
  | succ f ih =>
    cases s with
    | nil => rfl
    | cons c r =>
      rw [thinkVariantsGo]
      split
      · cases hgt : cutAfterCS [Char.ofNat 62] ((c :: r).drop 6) with
        | none => exact congrArg (c :: ·) (ih r h.tail)
        | some afterGt =>
          obtain ⟨k, hk⟩ := cutAfterCS_eq_drop hgt
          have hcut : cutAfterCI closeTag afterGt = none := by
            rw [hk]
            exact cutAfterCI_eq_none ((h.dropN 6).dropN k)
          dsimp only
          rw [hcut]
          exact congrArg (c :: ·) (ih r h.tail)
      · exact congrArg (c :: ·) (ih r h.tail)

theorem ciEqChar_self (c : Char) : ciEqChar c c = true := by
  simp [ciEqChar]

theorem ciStartsWith_append_self (p x : List Char) :
    ciStartsWith p (p ++ x) = true := by
  induction p with
  | nil => rfl
  | cons c ps ih =>
    rw [List.cons_append, ciStartsWith, ciEqChar_self, ih]
    rfl

theorem ciStartsWith_append_left {pat t : List Char} (u : List Char)
    (h : ciStartsWith pat t = true) : ciStartsWith pat (t ++ u) = true := by
  induction pat generalizing t with
  | nil => rfl
  | cons p ps ih =>
    cases t with
    | nil => exact absurd h (by rw [ciStartsWith_nil_false]; simp)
    | cons c r =>
      rw [ciStartsWith] at h
      rcases Bool.and_eq_true .. |>.mp h with ⟨h1, h2⟩
      rw [List.cons_append, ciStartsWith, h1, ih h2]
      rfl

theorem thinkUnterminated_append (a b : List Char)
    (honce : ∀ i, ciStartsWith openTag ((a ++ (openTag ++ b)).drop i) = true →
      i = a.length) :
    thinkUnterminated (a ++ (openTag ++ b)) = a := by
  induction a with
  | nil =>
    rw [List.nil_append]
    have hg : ciStartsWith openTag (openTag ++ b) = true :=
      ciStartsWith_append_self _ _
    cases hcons : openTag ++ b with
    | nil =>
      have := congrArg List.length hcons
      simp [openTag, str] at this
    | cons c r =>
      rw [hcons] at hg
      rw [thinkUnterminated, if_pos hg]
  | cons c a' ih =>
    have hg : ¬ ciStartsWith openTag ((c :: a') ++ (openTag ++ b)) = true := by
      intro hgt
      have := honce 0 (by rwa [List.drop_zero])
      simp at this
    rw [List.cons_append, thinkUnterminated,
      if_neg (by rwa [← List.cons_append])]
    refine congrArg (c :: ·) (ih ?_)
    intro i hm
    have := honce (i + 1) (by rwa [List.cons_append, List.drop_succ_cons])
    simpa using this

theorem thinkUnterminated_id (s : List Char)
    (h : ∀ i, ciStartsWith openTag (s.drop i) = false) :
    thinkUnterminated s = s := by
  induction s with
  | nil => rfl
  | cons c r ih =>
    have h0 : ciStartsWith openTag (c :: r) = false := by
      have := h 0
      rwa [List.drop_zero] at this
    rw [thinkUnterminated, if_neg (by simp [h0])]
    refine congrArg (c :: ·) (ih ?_)
    intro i
    have := h (i + 1)
    rwa [List.drop_succ_cons] at this

theorem removeThinkTags_span (a b : List Char)
    (honce : ∀ i, ciStartsWith openTag ((a ++ (openTag ++ b)).drop i) = true →
      i = a.length)
    (hnoclose : NoCIMatch closeTag (a ++ (openTag ++ b))) :
    removeThinkTags (a ++ (openTag ++ b)) = removeThinkTags a := by
  have hsne : a ++ (openTag ++ b) ≠ [] := by
    intro hnil
    have := congrArg List.length hnil
    simp [openTag, str] at this
  rw [removeThinkTags, if_neg hsne]
  have hp1 : thinkPairs (a ++ (openTag ++ b)) = a ++ (openTag ++ b) :=
    thinkPairsGo_id _ _ hnoclose
  have hp2 : thinkVariants (a ++ (openTag ++ b)) = a ++ (openTag ++ b) :=
    thinkVariantsGo_id _ _ hnoclose
  rw [hp1, hp2, thinkUnterminated_append a b honce]
  by_cases ha : a = []
  · subst ha
    rfl
  · rw [removeThinkTags, if_neg ha]
    have hnc_a : NoCIMatch closeTag a := by
      intro i
      by_cases hi : i ≤ a.length
      · have h2 := hnoclose i
        rw [List.drop_append_of_le_length hi] at h2
        cases hb : ciStartsWith closeTag (a.drop i) with
        | false => rfl
        | true =>
          rw [ciStartsWith_append_left _ hb] at h2
          exact absurd h2 (by simp)
      · rw [List.drop_eq_nil_of_le (by omega)]
        rfl
    have hno_a : ∀ i, ciStartsWith openTag (a.drop i) = false := by
      intro i
      by_cases hi : i < a.length
      · cases hb : ciStartsWith openTag (a.drop i) with
        | false => rfl
        | true =>
          have hs := ciStartsWith_append_left (openTag ++ b) hb
          rw [← List.drop_append_of_le_length (le_of_lt hi)] at hs
          have := honce i hs
          omega
      · rw [List.drop_eq_nil_of_le (by omega)]
        rfl
    rw [show thinkPairs a = a from thinkPairsGo_id _ _ hnc_a,
      show thinkVariants a = a from thinkVariantsGo_id _ _ hnc_a,
      thinkUnterminated_id a hno_a]

/-! ## Identity of the pipeline on canonical sanitized text -/

theorem canon_cases {c : Char} (h : canonChar c = true) :
    c = 'a' ∨ c = '.' ∨ c = ' ' := by
  simp only [canonChar, Bool.or_eq_true, beq_iff_eq] at h
  rcases h with (h | h) | h
  exacts [Or.inl h, Or.inr (Or.inl h), Or.inr (Or.inr h)]

theorem canon_tail {c : Char} {r : List Char}
    (h : ∀ x ∈ c :: r, canonChar x = true) : ∀ x ∈ r, canonChar x = true :=
  fun x hx => h x (List.mem_cons_of_mem c hx)

theorem canon_head {c : Char} {r : List Char}
    (h : ∀ x ∈ c :: r, canonChar x = true) : canonChar c = true :=
  h c (List.mem_cons_self c r)

theorem ciStartsWith_head_false (p : Char) (ps : List Char) (c : Char)
    (r : List Char) (h : ciEqChar p c = false) :
    ciStartsWith (p :: ps) (c :: r) = false := by
  rw [ciStartsWith, h, Bool.false_and]

theorem startsWithCS_head_false (p : Char) (ps : List Char) (c : Char)
    (r : List Char) (h : (p == c) = false) :
    startsWithCS (p :: ps) (c :: r) = false := by
  rw [startsWithCS, h, Bool.false_and]

theorem openTag_canon_false {c : Char} (r : List Char)
    (hc : canonChar c = true) : ciStartsWith openTag (c :: r) = false := by
  rw [show openTag = '<' :: str "think>" from rfl]
  rcases canon_cases hc with rfl | rfl | rfl <;>
    exact ciStartsWith_head_false _ _ _ _ (by decide)

theorem thinkWord_canon_false {c : Char} (r : List Char)
    (hc : canonChar c = true) : ciStartsWith (str "think") (c :: r) = false := by
  rw [show str "think" = 't' :: str "hink" from rfl]
  rcases canon_cases hc with rfl | rfl | rfl <;>
    exact ciStartsWith_head_false _ _ _ _ (by decide)

theorem thinkPairsGo_canon_id (fuel : Nat) (s : List Char)
    (hall : ∀ x ∈ s, canonChar x = true) : thinkPairsGo fuel s = s := by
  induction fuel generalizing s with
  | zero => rfl
  | succ f ih =>
    cases s with
    | nil => rfl
    | cons c r =>
      rw [thinkPairsGo, if_neg (by simp [openTag_canon_false r (canon_head hall)])]
      exact congrArg (c :: ·) (ih r (canon_tail hall))

theorem thinkVariantsGo_canon_id (fuel : Nat) (s : List Char)
    (hall : ∀ x ∈ s, canonChar x = true) : thinkVariantsGo fuel s = s := by
  induction fuel generalizing s with
  | zero => rfl
  | succ f ih =>
    cases s with
    | nil => rfl
    | cons c r =>
      have hg : ciStartsWith (str "<think") (c :: r) = false := by
        rw [show str "<think" = '<' :: str "think" from rfl]
        rcases canon_cases (canon_head hall) with rfl | rfl | rfl <;>
          exact ciStartsWith_head_false _ _ _ _ (by decide)
      rw [thinkVariantsGo, if_neg (by simp [hg])]
      exact congrArg (c :: ·) (ih r (canon_tail hall))

theorem thinkUnterminated_canon_id (s : List Char)
    (hall : ∀ x ∈ s, canonChar x = true) : thinkUnterminated s = s := by
  induction s with
  | nil => rfl
  | cons c r ih =>
    rw [thinkUnterminated,
      if_neg (by simp [openTag_canon_false r (canon_head hall)])]
    exact congrArg (c :: ·) (ih (canon_tail hall))

theorem thinkColonGo_canon_id (fuel : Nat) (s : List Char)
    (hall : ∀ x ∈ s, canonChar x = true) : thinkColonGo fuel s = s := by
  induction fuel generalizing s with
  | zero => rfl
  | succ f ih =>
    cases s with
    | nil => rfl
    | cons c r =>
      rw [thinkColonGo, if_neg (by simp [thinkWord_canon_false r (canon_head hall)])]
      exact congrArg (c :: ·) (ih r (canon_tail hall))

theorem canon_not_lineTerm {c : Char} (hc : canonChar c = true) :
    isLineTerm c = false := by
  rcases canon_cases hc with rfl | rfl | rfl <;> decide

theorem takeWhile_all {p : Char → Bool} {s : List Char}
    (h : ∀ x ∈ s, p x = true) : s.takeWhile p = s := by
  induction s with
  | nil => rfl
  | cons c r ih =>
    rw [List.takeWhile_cons_of_pos (canon_head?_aux h)]
    exact congrArg (c :: ·) (ih fun x hx => h x (List.mem_cons_of_mem c hx))
where
  canon_head?_aux {p : Char → Bool} {c : Char} {r : List Char}
      (h : ∀ x ∈ c :: r, p x = true) : p c = true :=
    h c (List.mem_cons_self c r)

theorem mapLines_of_noTerm (f : List Char → List Char) (s : List Char)
    (hall : ∀ x ∈ s, canonChar x = true) : mapLines f s = f s := by
  have hline : (s.takeWhile fun c => !isLineTerm c) = s :=
    takeWhile_all fun x hx => by rw [canon_not_lineTerm (hall x hx)]; rfl
  simp only [mapLines, mapLinesGo, hline, List.drop_length]

theorem lineContainsCI_think_false (s : List Char)
    (hall : ∀ x ∈ s, canonChar x = true) :
    lineContainsCI (str "think") s = false := by
  induction s with
  | nil => rfl
  | cons c r ih =>
    rw [lineContainsCI, thinkWord_canon_false r (canon_head hall),
      ih (canon_tail hall)]
    rfl

theorem lineStartThink_canon_id (s : List Char)
    (hall : ∀ x ∈ s, canonChar x = true) : lineStartThink s = s := by
  cases s with
  | nil => rfl
  | cons c r =>
    rw [lineStartThink,
      if_neg (by simp [thinkWord_canon_false r (canon_head hall)])]

theorem lineAnyThink_canon_id (s : List Char)
    (hall : ∀ x ∈ s, canonChar x = true) : lineAnyThink s = s := by
  rw [lineAnyThink, if_neg (by simp [lineContainsCI_think_false s hall])]

theorem okayLetMeLine_canon_id (s : List Char)
    (hall : ∀ x ∈ s, canonChar x = true) : okayLetMeLine s = s := by
  induction s with
  | nil => rfl
  | cons c r ih =>
    have hg : ciStartsWith (str "okay,") (c :: r) = false := by
      rw [show str "okay," = 'o' :: str "kay," from rfl]
      rcases canon_cases (canon_head hall) with rfl | rfl | rfl <;>
        exact ciStartsWith_head_false _ _ _ _ (by decide)
    rw [okayLetMeLine, if_neg (by simp [hg])]
    exact congrArg (c :: ·) (ih (canon_tail hall))

theorem iNeedToLine_canon_id (s : List Char)
    (hall : ∀ x ∈ s, canonChar x = true) : iNeedToLine s = s := by
  induction s with
  | nil => rfl
  | cons c r ih =>
    have hg : ciStartsWith (str "i need to") (c :: r) = false := by
      rw [show str "i need to" = 'i' :: str " need to" from rfl]
      rcases canon_cases (canon_head hall) with rfl | rfl | rfl <;>
        exact ciStartsWith_head_false _ _ _ _ (by decide)
    rw [iNeedToLine, if_neg (by simp [hg])]
    exact congrArg (c :: ·) (ih (canon_tail hall))

theorem firstThenLine_canon_id (s : List Char)
    (hall : ∀ x ∈ s, canonChar x = true) : firstThenLine s = s := by
  induction s with
  | nil => rfl
  | cons c r ih =>
    have hg : ciStartsWith (str "first,") (c :: r) = false := by
      rw [show str "first," = 'f' :: str "irst," from rfl]
      rcases canon_cases (canon_head hall) with rfl | rfl | rfl <;>
        exact ciStartsWith_head_false _ _ _ _ (by decide)
    rw [firstThenLine, if_neg (by simp [hg])]
    exact congrArg (c :: ·) (ih (canon_tail hall))

theorem removeThinkTags_canon_id (s : List Char)
    (hall : ∀ x ∈ s, canonChar x = true) : removeThinkTags s = s := by
  by_cases hnil : s = []
  · rw [removeThinkTags, if_pos hnil]
  · rw [removeThinkTags, if_neg hnil]
    have h1 : thinkPairs s = s := thinkPairsGo_canon_id _ _ hall
    have h2 : thinkVariants s = s := thinkVariantsGo_canon_id _ _ hall
    have h3 : thinkUnterminated s = s := thinkUnterminated_canon_id _ hall
    have h4 : thinkColon s = s := thinkColonGo_canon_id _ _ hall
    have h5 : mapLines lineStartThink s = s := by
      rw [mapLines_of_noTerm _ _ hall, lineStartThink_canon_id _ hall]
    have h6 : mapLines lineAnyThink s = s := by
      rw [mapLines_of_noTerm _ _ hall, lineAnyThink_canon_id _ hall]
    have h7 : mapLines okayLetMeLine s = s := by
      rw [mapLines_of_noTerm _ _ hall, okayLetMeLine_canon_id _ hall]
    have h8 : mapLines iNeedToLine s = s := by
      rw [mapLines_of_noTerm _ _ hall, iNeedToLine_canon_id _ hall]
    have h9 : mapLines firstThenLine s = s := by
      rw [mapLines_of_noTerm _ _ hall, firstThenLine_canon_id _ hall]
    unfold thinkLineHeuristics
    rw [h1, h2, h3, h4, h5, h6, h7, h8, h9]

theorem codeBlocks_canon_id (s : List Char)
    (hall : ∀ x ∈ s, canonChar x = true) : codeBlocks s = s := by
  unfold codeBlocks
  generalize s.length = fuel
  induction fuel generalizing s with
  | zero => rfl
  | succ f ih =>
    cases s with
    | nil => rfl
    | cons c r =>
      have hg : (tickChar == c) = false := by
        rcases canon_cases (canon_head hall) with rfl | rfl | rfl <;> decide
      rw [codeBlocksGo,
        if_neg (by simp [startsWithCS_head_false tickChar _ c r hg])]
      exact congrArg (c :: ·) (ih r (canon_tail hall))

theorem inlineCode_canon_id (s : List Char)
    (hall : ∀ x ∈ s, canonChar x = true) : inlineCode s = s := by
  unfold inlineCode
  generalize s.length = fuel
  induction fuel generalizing s with
  | zero => rfl
  | succ f ih =>
    cases s with
    | nil => rfl
    | cons c r =>
      have hg : (c == tickChar) = false := by
        rcases canon_cases (canon_head hall) with rfl | rfl | rfl <;> decide
      rw [inlineCodeGo, if_neg (by simp [hg])]
      exact congrArg (c :: ·) (ih r (canon_tail hall))

theorem drop_length_takeWhile (p : Char → Bool) (s : List Char) :
    s.drop (s.takeWhile p).length = s.dropWhile p := by
  induction s with
  | nil => rfl
  | cons c r ih =>
    by_cases hp : p c
    · rw [List.takeWhile_cons_of_pos hp, List.dropWhile_cons_of_pos hp,
        List.length_cons, List.drop_succ_cons]
      exact ih
    · rw [List.takeWhile_cons_of_neg hp, List.dropWhile_cons_of_neg hp]
      rfl

theorem dropWhile_head_false (p : Char → Bool) (s : List Char) {c : Char}
    {t : List Char} (h : s.dropWhile p = c :: t) : p c = false := by
  induction s with
  | nil => simp at h
  | cons d r ih =>
    by_cases hp : p d
    · rw [List.dropWhile_cons_of_pos hp] at h
      exact ih h
    · rw [List.dropWhile_cons_of_neg hp] at h
      injection h with h1 _
      subst h1
      simpa using hp

theorem dropWhile_mem (p : Char → Bool) {s : List Char} {x : Char}
    (hx : x ∈ s.dropWhile p) : x ∈ s :=
  (List.dropWhile_sublist p).subset hx

theorem lineAnchorGo_canon_id (tryFn : List Char → Option (List Char × Char))
    (htry : ∀ c r, canonChar c = true → (∀ x ∈ r, canonChar x = true) →
      tryFn (c :: r) = none)
    (fuel : Nat) (ls : Bool) (s : List Char)
    (hall : ∀ x ∈ s, canonChar x = true) :
    lineAnchorGo tryFn fuel ls s = s := by
  induction fuel generalizing ls s with
  | zero => rfl
  | succ f ih =>
    cases s with
    | nil => rfl
    | cons c r =>
      rw [lineAnchorGo, htry c r (canon_head hall) (canon_tail hall)]
      split
      · exact congrArg (c :: ·) (ih _ r (canon_tail hall))
      · exact congrArg (c :: ·) (ih _ r (canon_tail hall))

theorem tryHeader_canon_none (c : Char) (r : List Char) (hc : canonChar c = true)
    (_ : ∀ x ∈ r, canonChar x = true) : tryHeader (c :: r) = none := by
  have hhash : ¬ (c == '#') = true := by
    rcases canon_cases hc with rfl | rfl | rfl <;> decide
  unfold tryHeader
  dsimp only
  rw [@List.takeWhile_cons_of_neg _ (fun x => x == '#') c r hhash]
  rfl

theorem tryBullet_canon_none (c : Char) (r : List Char) (hc : canonChar c = true)
    (hr : ∀ x ∈ r, canonChar x = true) : tryBullet (c :: r) = none := by
  have hall : ∀ x ∈ c :: r, canonChar x = true := by
    intro x hx
    rcases List.mem_cons.mp hx with rfl | hx
    exacts [hc, hr x hx]
  unfold tryBullet
  dsimp only
  rw [drop_length_takeWhile]
  cases hdw : (c :: r).dropWhile jsWs with
  | nil => rfl
  | cons b rest =>
    have hb_mem : b ∈ (c :: r).dropWhile jsWs := by
      rw [hdw]
      exact List.mem_cons_self b rest
    have hb_canon : canonChar b = true := hall b (dropWhile_mem _ hb_mem)
    have hb_ws : jsWs b = false := dropWhile_head_false _ _ hdw
    have hbul : ¬ (b == '-' || b == '*' || b == '+') = true := by
      rcases canon_cases hb_canon with rfl | rfl | rfl
      · decide
      · decide
      · exact absurd hb_ws (by decide)
    dsimp only
    rw [if_neg hbul]

theorem tryNumbered_canon_none (c : Char) (r : List Char)
    (hc : canonChar c = true) (_ : ∀ x ∈ r, canonChar x = true) :
    tryNumbered (c :: r) = none := by
  have hdig : ¬ (Char.isDigit c) = true := by
    rcases canon_cases hc with rfl | rfl | rfl <;> decide
  unfold tryNumbered
  dsimp only
  rw [@List.takeWhile_cons_of_neg _ Char.isDigit c r hdig]
  rfl

theorem tryBlockquote_canon_none (c : Char) (r : List Char)
    (hc : canonChar c = true) (_ : ∀ x ∈ r, canonChar x = true) :
    tryBlockquote (c :: r) = none := by
  have hgt : ¬ (c == '>') = true := by
    rcases canon_cases hc with rfl | rfl | rfl <;> decide
  unfold tryBlockquote
  dsimp only
  rw [if_neg hgt]

theorem unwrapDouble_canon_id (d : Char)
    (hd : ∀ c, canonChar c = true → (d == c) = false)
    (s : List Char) (hall : ∀ x ∈ s, canonChar x = true) :
    unwrapDouble d s = s := by
  unfold unwrapDouble
  generalize s.length = fuel
  induction fuel generalizing s with
  | zero => rfl
  | succ f ih =>
    cases s with
    | nil => rfl
    | cons c r =>
      rw [unwrapDoubleGo,
        if_neg (by simp [startsWithCS_head_false d [d] c r (hd c (canon_head hall))])]
      exact congrArg (c :: ·) (ih r (canon_tail hall))

theorem unwrapSingle_canon_id (d : Char)
    (hd : ∀ c, canonChar c = true → (c == d) = false)
    (s : List Char) (hall : ∀ x ∈ s, canonChar x = true) :
    unwrapSingle d s = s := by
  unfold unwrapSingle
  generalize s.length = fuel
  induction fuel generalizing s with
  | zero => rfl
  | succ f ih =>
    cases s with
    | nil => rfl
    | cons c r =>
      rw [unwrapSingleGo, if_neg (by simp [hd c (canon_head hall)])]
      exact congrArg (c :: ·) (ih r (canon_tail hall))

theorem links_canon_id (s : List Char)
    (hall : ∀ x ∈ s, canonChar x = true) : links s = s := by
  unfold links
  generalize s.length = fuel
  induction fuel generalizing s with
  | zero => rfl
  | succ f ih =>
    cases s with
    | nil => rfl
    | cons c r =>
      have hg : ¬ (c == '[') = true := by
        rcases canon_cases (canon_head hall) with rfl | rfl | rfl <;> decide
      rw [linksGo, if_neg hg]
      exact congrArg (c :: ·) (ih r (canon_tail hall))

theorem removeMarkdown_canon_id (s : List Char)
    (hall : ∀ x ∈ s, canonChar x = true) : removeMarkdown s = s := by
  simp only [removeMarkdown, lineAnchor]
  rw [codeBlocks_canon_id s hall, inlineCode_canon_id s hall,
    lineAnchorGo_canon_id tryHeader tryHeader_canon_none _ _ s hall,
    unwrapDouble_canon_id '*' (fun c hc => by
      rcases canon_cases hc with rfl | rfl | rfl <;> decide) s hall,
    unwrapSingle_canon_id '*' (fun c hc => by
      rcases canon_cases hc with rfl | rfl | rfl <;> decide) s hall,
    unwrapDouble_canon_id '_' (fun c hc => by
      rcases canon_cases hc with rfl | rfl | rfl <;> decide) s hall,
    unwrapSingle_canon_id '_' (fun c hc => by
      rcases canon_cases hc with rfl | rfl | rfl <;> decide) s hall,
    links_canon_id s hall,
    lineAnchorGo_canon_id tryBullet tryBullet_canon_none _ _ s hall,
    lineAnchorGo_canon_id tryNumbered tryNumbered_canon_none _ _ s hall,
    lineAnchorGo_canon_id tryBlockquote tryBlockquote_canon_none _ _ s hall]

theorem faceEyesFirst_canon_id (s : List Char)
    (hall : ∀ x ∈ s, canonChar x = true) : faceEyesFirst s = s := by
  unfold faceEyesFirst
  generalize s.length = fuel
  induction fuel generalizing s with
  | zero => rfl
  | succ f ih =>
    cases s with
    | nil => rfl
    | cons c r =>
      have hg : ¬ eyesChar c = true := by
        rcases canon_cases (canon_head hall) with rfl | rfl | rfl <;> decide
      rw [faceEyesFirstGo.eq_def]
      dsimp only
      rw [if_neg hg]
      exact congrArg (c :: ·) (ih r (canon_tail hall))

theorem faceMouthFirst_canon_id (s : List Char)
    (hall : ∀ x ∈ s, canonChar x = true) : faceMouthFirst s = s := by
  unfold faceMouthFirst
  generalize s.length = fuel
  induction fuel generalizing s with
  | zero => rfl
  | succ f ih =>
    cases s with
    | nil => rfl
    | cons c r =>
      have hg : ¬ mouthChar c = true := by
        rcases canon_cases (canon_head hall) with rfl | rfl | rfl <;> decide
      rw [faceMouthFirstGo.eq_def]
      dsimp only
      rw [if_neg hg]
      exact congrArg (c :: ·) (ih r (canon_tail hall))

theorem removeEmoticons_canon_id (s : List Char)
    (hall : ∀ x ∈ s, canonChar x = true) : removeEmoticons s = s := by
  simp only [removeEmoticons]
  have hf : s.filter (fun c => !emojiRange c) = s :=
    List.filter_eq_self.mpr fun c hc => by
      rcases canon_cases (hall c hc) with rfl | rfl | rfl <;> decide
  rw [hf, faceEyesFirst_canon_id s hall, faceMouthFirst_canon_id s hall]

theorem percent_canon_id (s : List Char)
    (hall : ∀ x ∈ s, canonChar x = true) : percent s = s := by
  unfold percent
  generalize s.length = fuel
  induction fuel generalizing s with
  | zero => rfl
  | succ f ih =>
    cases s with
    | nil => rfl
    | cons c r =>
      have hg : ¬ c.isDigit = true := by
        rcases canon_cases (canon_head hall) with rfl | rfl | rfl <;> decide
      rw [percentGo, if_neg hg]
      exact congrArg (c :: ·) (ih r (canon_tail hall))

theorem rupiah_canon_id (s : List Char)
    (hall : ∀ x ∈ s, canonChar x = true) : rupiah s = s := by
  unfold rupiah
  generalize s.length = fuel
  induction fuel generalizing s with
  | zero => rfl
  | succ f ih =>
    cases s with
    | nil => rfl
    | cons c r =>
      have hg : startsWithCS (str "Rp") (c :: r) = false := by
        rw [show str "Rp" = 'R' :: str "p" from rfl]
        rcases canon_cases (canon_head hall) with rfl | rfl | rfl <;>
          exact startsWithCS_head_false _ _ _ _ (by decide)
      rw [rupiahGo, if_neg (by simp [hg])]
      exact congrArg (c :: ·) (ih r (canon_tail hall))

theorem dollar_canon_id (s : List Char)
    (hall : ∀ x ∈ s, canonChar x = true) : dollar s = s := by
  unfold dollar
  generalize s.length = fuel
  induction fuel generalizing s with
  | zero => rfl
  | succ f ih =>
    cases s with
    | nil => rfl
    | cons c r =>
      have hg : ¬ (c == '$') = true := by
        rcases canon_cases (canon_head hall) with rfl | rfl | rfl <;> decide
      rw [dollarGo, if_neg hg]
      exact congrArg (c :: ·) (ih r (canon_tail hall))

theorem normalizeNumbers_canon_id (s : List Char)
    (hall : ∀ x ∈ s, canonChar x = true) : normalizeNumbers s = s := by
  unfold normalizeNumbers
  rw [percent_canon_id s hall, rupiah_canon_id s hall, dollar_canon_id s hall]

theorem collapseRuns_canon_id (ch : Char) (th em : Nat)
    (hne : ∀ c, canonChar c = true → (c == ch) = false)
    (s : List Char) (hall : ∀ x ∈ s, canonChar x = true) :
    collapseRuns ch th em s = s := by
  unfold collapseRuns
  generalize s.length = fuel
  induction fuel generalizing s with
  | zero => rfl
  | succ f ih =>
    cases s with
    | nil => rfl
    | cons c r =>
      rw [collapseRunsGo, if_neg (by simp [hne c (canon_head hall)])]
      exact congrArg (c :: ·) (ih r (canon_tail hall))

theorem noTripleDot_tail {c : Char} {r : List Char}
    (h : noTripleDot (c :: r) = true) : noTripleDot r = true := by
  cases r with
  | nil => rfl
  | cons d r' =>
    cases r' with
    | nil => rfl
    | cons e r'' =>
      rw [noTripleDot] at h
      exact (Bool.and_eq_true .. |>.mp h).2

theorem noTripleDot_drop (k : Nat) (s : List Char)
    (h : noTripleDot s = true) : noTripleDot (s.drop k) = true := by
  induction k generalizing s with
  | zero => simpa using h
  | succ n ih =>
    cases s with
    | nil => exact h
    | cons c r =>
      rw [List.drop_succ_cons]
      exact ih r (noTripleDot_tail h)

theorem dots_run_le_two {r : List Char} (h3 : noTripleDot ('.' :: r) = true) :
    (('.' :: r).takeWhile (fun x => x == '.')).length ≤ 2 := by
  rw [List.takeWhile_cons_of_pos (by decide)]
  cases r with
  | nil => simp
  | cons d r' =>
    by_cases hd : (d == '.') = true
    · have hd' : d = '.' := by simpa using hd
      subst hd'
      rw [List.takeWhile_cons_of_pos (by decide)]
      cases r' with
      | nil => simp
      | cons e r'' =>
        have he : ¬ (e == '.') = true := by
          intro he'
          have he2 : e = '.' := by simpa using he'
          subst he2
          rw [noTripleDot] at h3
          simp at h3
        rw [@List.takeWhile_cons_of_neg _ (fun x => x == '.') e r'' he]
        simp
    · rw [@List.takeWhile_cons_of_neg _ (fun x => x == '.') d r' hd]
      simp

theorem collapseDots_canon_id (s : List Char)
    (hall : ∀ x ∈ s, canonChar x = true) (h3 : noTripleDot s = true) :
    collapseRuns '.' 3 3 s = s := by
  unfold collapseRuns
  generalize s.length = fuel
  induction fuel generalizing s with
  | zero => rfl
  | succ f ih =>
    cases s with
    | nil => rfl
    | cons c r =>
      rw [collapseRunsGo]
      by_cases hc : (c == '.') = true
      · have hceq : c = '.' := by simpa using hc
        subst hceq
        rw [if_pos hc]
        have hrun := dots_run_le_two h3
        rw [if_neg (by omega), drop_length_takeWhile]
        have hdw3 : noTripleDot (('.' :: r).dropWhile fun x => x == '.') = true := by
          rw [← drop_length_takeWhile]
          exact noTripleDot_drop _ _ h3
        rw [ih _ (fun x hx => hall x (dropWhile_mem _ hx)) hdw3]
        exact List.takeWhile_append_dropWhile ..
      · rw [if_neg hc]
        exact congrArg (c :: ·) (ih r (canon_tail hall) (noTripleDot_tail h3))

theorem replaceWordGo_canon_id (abbr full : List Char)
    (habbr : ∀ c r, canonChar c = true → ciStartsWith abbr (c :: r) = false)
    (fuel : Nat) (prev : Option Char) (s : List Char)
    (hall : ∀ x ∈ s, canonChar x = true) :
    replaceWordGo abbr full fuel prev s = s := by
  induction fuel generalizing prev s with
  | zero => rfl
  | succ f ih =>
    cases s with
    | nil => rfl
    | cons c r =>
      rw [replaceWordGo.eq_def]
      dsimp only
      rw [habbr c r (canon_head hall)]
      split
      · rename_i hcond
        rw [Bool.and_false] at hcond
        exact absurd hcond (by simp)
      · exact congrArg (c :: ·) (ih _ r (canon_tail hall))

theorem foldl_replaceWord_id (L : List (List Char × List Char)) (s : List Char)
    (hall : ∀ x ∈ s, canonChar x = true)
    (hL : ∀ p ∈ L, ∀ c r, canonChar c = true →
      ciStartsWith p.1 (c :: r) = false) :
    L.foldl (fun acc p => replaceWord p.1 p.2 acc) s = s := by
  induction L with
  | nil => rfl
  | cons p L' ih =>
    rw [List.foldl_cons]
    have hw : replaceWord p.1 p.2 s = s := by
      unfold replaceWord
      exact replaceWordGo_canon_id _ _ (hL p (List.mem_cons_self p L')) _ _ _ hall
    rw [hw]
    exact ih fun q hq => hL q (List.mem_cons_of_mem p hq)

theorem normalizePunctuation_canon_id (s : List Char)
    (hall : ∀ x ∈ s, canonChar x = true) (h3 : noTripleDot s = true) :
    normalizePunctuation s = s := by
  simp only [normalizePunctuation]
  rw [collapseRuns_canon_id '!' 2 1 (fun c hc => by
      rcases canon_cases hc with rfl | rfl | rfl <;> decide) s hall,
    collapseRuns_canon_id '?' 2 1 (fun c hc => by
      rcases canon_cases hc with rfl | rfl | rfl <;> decide) s hall,
    collapseDots_canon_id s hall h3]
  apply foldl_replaceWord_id _ _ hall
  intro p hp c r hc
  simp only [abbreviationList, List.mem_cons, List.not_mem_nil, or_false] at hp
  rcases hp with rfl | rfl | rfl | rfl | rfl | rfl | rfl | rfl | rfl | rfl | rfl | rfl | rfl
  all_goals (rcases canon_cases hc with rfl | rfl | rfl <;>
    exact ciStartsWith_head_false _ _ _ _ (by decide))

theorem noDoubleSpace_tail {c : Char} {r : List Char}
    (h : noDoubleSpace (c :: r) = true) : noDoubleSpace r = true := by
  cases r with
  | nil => rfl
  | cons d r' =>
    rw [noDoubleSpace] at h
    exact (Bool.and_eq_true .. |>.mp h).2

theorem wsCollapseGo_nil (fuel : Nat) : wsCollapseGo fuel [] = [] := by
  cases fuel <;> rfl

theorem wsCollapse_canon_id (s : List Char)
    (hall : ∀ x ∈ s, canonChar x = true) (h2 : noDoubleSpace s = true) :
    wsCollapse s = s := by
  unfold wsCollapse
  generalize s.length = fuel
  induction fuel generalizing s with
  | zero => rfl
  | succ f ih =>
    cases s with
    | nil => rfl
    | cons c r =>
      rw [wsCollapseGo]
      rcases canon_cases (canon_head hall) with rfl | rfl | rfl
      · rw [if_neg (by decide)]
        exact congrArg _ (ih r (canon_tail hall) (noDoubleSpace_tail h2))
      · rw [if_neg (by decide)]
        exact congrArg _ (ih r (canon_tail hall) (noDoubleSpace_tail h2))
      · rw [if_pos (by decide), List.dropWhile_cons_of_pos (by decide)]
        cases r with
        | nil =>
          rw [List.dropWhile_nil, wsCollapseGo_nil]
        | cons d r' =>
          have hdd : (d == ' ') = false := by
            rw [noDoubleSpace] at h2
            have := (Bool.and_eq_true .. |>.mp h2).1
            simpa using this
          have hd_canon : canonChar d = true := canon_head (canon_tail hall)
          have hdws : ¬ jsWs d = true := by
            rcases canon_cases hd_canon with rfl | rfl | rfl
            · decide
            · decide
            · simp at hdd
          rw [List.dropWhile_cons_of_neg hdws]
          exact congrArg (' ' :: ·)
            (ih (d :: r') (canon_tail hall) (noDoubleSpace_tail h2))

theorem nlCollapse_canon_id (s : List Char)
    (hall : ∀ x ∈ s, canonChar x = true) : nlCollapse s = s := by
  unfold nlCollapse
  generalize s.length = fuel
  induction fuel generalizing s with
  | zero => rfl
  | succ f ih =>
    cases s with
    | nil => rfl
    | cons c r =>
      have hg : ¬ (c == Char.ofNat 10) = true := by
        rcases canon_cases (canon_head hall) with rfl | rfl | rfl <;> decide
      rw [nlCollapseGo, if_neg hg]
      exact congrArg (c :: ·) (ih r (canon_tail hall))

theorem parens_canon_id (s : List Char)
    (hall : ∀ x ∈ s, canonChar x = true) : parens s = s := by
  unfold parens
  generalize s.length = fuel
  induction fuel generalizing s with
  | zero => rfl
  | succ f ih =>
    cases s with
    | nil => rfl
    | cons c r =>
      have hg : ¬ (c == '(') = true := by
        rcases canon_cases (canon_head hall) with rfl | rfl | rfl <;> decide
      rw [parensGo, if_neg hg]
      exact congrArg (c :: ·) (ih r (canon_tail hall))

theorem urls_canon_id (s : List Char)
    (hall : ∀ x ∈ s, canonChar x = true) : urls s = s := by
  unfold urls
  generalize s.length = fuel
  induction fuel generalizing s with
  | zero => rfl
  | succ f ih =>
    cases s with
    | nil => rfl
    | cons c r =>
      have h1 : startsWithCS (str "https://") (c :: r) = false := by
        rw [show str "https://" = 'h' :: str "ttps://" from rfl]
        rcases canon_cases (canon_head hall) with rfl | rfl | rfl <;>
          exact startsWithCS_head_false _ _ _ _ (by decide)
      have h2 : startsWithCS (str "http://") (c :: r) = false := by
        rw [show str "http://" = 'h' :: str "ttp://" from rfl]
        rcases canon_cases (canon_head hall) with rfl | rfl | rfl <;>
          exact startsWithCS_head_false _ _ _ _ (by decide)
      rw [urlGo]
      dsimp only
      rw [if_neg (by simp [h1]), if_neg (by simp [h2])]
      exact congrArg (c :: ·) (ih r (canon_tail hall))

theorem multiSpace_canon_id (s : List Char)
    (hall : ∀ x ∈ s, canonChar x = true) (h2 : noDoubleSpace s = true) :
    multiSpace s = s := by
  unfold multiSpace
  generalize s.length = fuel
  induction fuel generalizing s with
  | zero => rfl
  | succ f ih =>
    cases s with
    | nil => rfl
    | cons c r =>
      rw [multiSpaceGo]
      rcases canon_cases (canon_head hall) with rfl | rfl | rfl
      · rw [if_neg (by decide)]
        exact congrArg _ (ih r (canon_tail hall) (noDoubleSpace_tail h2))
      · rw [if_neg (by decide)]
        exact congrArg _ (ih r (canon_tail hall) (noDoubleSpace_tail h2))
      · rw [if_pos (by decide), List.takeWhile_cons_of_pos (by decide)]
        have hrun : (r.takeWhile jsWs) = [] := by
          cases r with
          | nil => rfl
          | cons d r' =>
            have hdd : (d == ' ') = false := by
              rw [noDoubleSpace] at h2
              have := (Bool.and_eq_true .. |>.mp h2).1
              simpa using this
            have hd_canon : canonChar d = true := canon_head (canon_tail hall)
            have hdws : ¬ jsWs d = true := by
              rcases canon_cases hd_canon with rfl | rfl | rfl
              · decide
              · decide
              · simp at hdd
            exact List.takeWhile_cons_of_neg hdws
        rw [hrun]
        rw [if_neg (by simp)]
        exact congrArg _ (ih r (canon_tail hall) (noDoubleSpace_tail h2))

theorem cleanupText_canon_id (s : List Char)
    (hall : ∀ x ∈ s, canonChar x = true) (h2 : noDoubleSpace s = true) :
    cleanupText s = s := by
  simp only [cleanupText]
  have hf1 : s.filter (fun c => !speechUnsafe c) = s :=
    List.filter_eq_self.mpr fun c hc => by
      rcases canon_cases (hall c hc) with rfl | rfl | rfl <;> decide
  have hf2 : s.filter (fun c => !quoteChar c) = s :=
    List.filter_eq_self.mpr fun c hc => by
      rcases canon_cases (hall c hc) with rfl | rfl | rfl <;> decide
  rw [wsCollapse_canon_id s hall h2, nlCollapse_canon_id s hall, hf1, hf2,
    parens_canon_id s hall, urls_canon_id s hall,
    multiSpace_canon_id s hall h2]

theorem limitLength_within (t : List Char) (n : Nat) (h : jsLength t ≤ n) :
    limitLength t n = t := by
  unfold limitLength
  rw [if_pos h]

theorem formatForVoice_canon_id (cfg : VoiceFormatterConfig) (s : List Char)
    (h : Canonical cfg s) : formatForVoice cfg s = s := by
  obtain ⟨hall, h2, h3, htrim, hb⟩ := h
  simp only [formatForVoice]
  have e1 : (if cfg.removeThinkTags = true then removeThinkTags s else s) = s := by
    split
    · exact removeThinkTags_canon_id s hall
    · rfl
  have e2 : (if cfg.removeMarkdown = true then removeMarkdown s else s) = s := by
    split
    · exact removeMarkdown_canon_id s hall
    · rfl
  have e3 : (if cfg.removeEmoticons = true then removeEmoticons s else s) = s := by
    split
    · exact removeEmoticons_canon_id s hall
    · rfl
  have e4 : (if cfg.normalizeNumbers = true then normalizeNumbers s else s) = s := by
    split
    · exact normalizeNumbers_canon_id s hall
    · rfl
  have e5 : (if cfg.normalizePunctuation = true then normalizePunctuation s else s) = s := by
    split
    · exact normalizePunctuation_canon_id s hall h3
    · rfl
  rw [e1, e2, e3, e4, e5, cleanupText_canon_id s hall h2]
  cases hm : cfg.maxLength with
  | none => exact htrim
  | some n =>
    dsimp only
    have hlen : jsLength s ≤ n := by
      have hwb := hb
      simp only [withinBound, hm, decide_eq_true_eq] at hwb
      exact hwb
    by_cases hn : n = 0
    · rw [if_pos hn]
      exact htrim
    · rw [if_neg hn, limitLength_within s n hlen]
      exact htrim

/-! ## Claim theorems: validator and retry controller -/

/-- Claim C7 counterexample: `formatForVoice` is not idempotent even on
markup-, markdown- and emoji-free input.  With a configured maximum length
of 6, the input `"aaaa a a"` sanitizes to `"aaaa a."` (7 UTF-16 units: the
word stage's length check does not count the joining space, and a period is
appended); a second pass re-truncates it to `"aaaa."`. -/
theorem c7_counterexample :
    formatForVoice ⟨true, true, true, true, true, some 6⟩ (str "aaaa a a") =
      str "aaaa a." ∧
    formatForVoice ⟨true, true, true, true, true, some 6⟩
        (formatForVoice ⟨true, true, true, true, true, some 6⟩
          (str "aaaa a a")) ≠
      formatForVoice ⟨true, true, true, true, true, some 6⟩ (str "aaaa a a") := by
  exact ⟨by decide, by decide⟩

/-- Claim C7 (amended): sanitizer idempotence fails in general (see the
counterexample), and it also fails on realistic word-character text that
meets every side condition (trimmed, single spaces, no ellipsis runs,
within the bound): abbreviation expansion rewrites `"tdk"` to `"tidak"`, a
line containing `think` is emptied, and with a maximum length of 7 the
7-unit input `"yg aa a"` sanitizes to `"yang aa."` while a second pass
gives `"yang."`.  Idempotence does hold on the narrow canonical class —
strings over the single representative word character `a`, isolated
periods and single separating spaces, trimmed, with no ellipsis runs,
within the configured length bound — on which `formatForVoice` is the
identity. -/
theorem c7_canonical_idempotent :
    (∀ (cfg : VoiceFormatterConfig) (s : List Char), Canonical cfg s →
      formatForVoice cfg s = s ∧
      formatForVoice cfg (formatForVoice cfg s) = formatForVoice cfg s) ∧
    formatForVoice DEFAULT_VOICE_CONFIG (str "tdk") = str "tidak" ∧
    formatForVoice DEFAULT_VOICE_CONFIG (str "think") = [] ∧
    formatForVoice ⟨true, true, true, true, true, some 7⟩
        (formatForVoice ⟨true, true, true, true, true, some 7⟩
          (str "yg aa a")) ≠
      formatForVoice ⟨true, true, true, true, true, some 7⟩ (str "yg aa a") := by
  refine ⟨?_, by decide, by decide, by decide⟩
  intro cfg s h
  have hid := formatForVoice_canon_id cfg s h
  refine ⟨hid, ?_⟩
  rw [hid]
  exact hid

/-- Claim C7 witness: the identity-and-idempotence part of the amended
statement instantiated with the default configuration on a concrete
canonical text. -/
theorem c7_canonical_idempotent_witness :
    formatForVoice DEFAULT_VOICE_CONFIG (str "aaa. aa") = str "aaa. aa" ∧
    formatForVoice DEFAULT_VOICE_CONFIG
        (formatForVoice DEFAULT_VOICE_CONFIG (str "aaa. aa")) =
      formatForVoice DEFAULT_VOICE_CONFIG (str "aaa. aa") :=
  c7_canonical_idempotent.1 DEFAULT_VOICE_CONFIG (str "aaa. aa")
    ⟨by decide, by decide, by decide, by decide, by decide⟩

/-- Claim C1: for an input with exactly one `<think>` start marker (the only
case-insensitive match position is `a.length`, where the text splits as
`a ++ "<think>" ++ b`) and no `</think>` end marker, the sanitizer with
reasoning-span removal enabled removes everything from the start marker to
the end of the text: the output equals the sanitized preceding text (so it
is empty, or consists only of text that preceded the marker). -/
theorem c1_unterminated_span (cfg : VoiceFormatterConfig) (a b : List Char)
    (hflag : cfg.removeThinkTags = true)
    (honce : ∀ i, i < (a ++ (openTag ++ b)).length →
      ciStartsWith openTag ((a ++ (openTag ++ b)).drop i) = true → i = a.length)
    (hnoclose : ∀ i, i < (a ++ (openTag ++ b)).length →
      ciStartsWith closeTag ((a ++ (openTag ++ b)).drop i) = false) :
    formatForVoice cfg (a ++ (openTag ++ b)) = formatForVoice cfg a := by
  have honce' : ∀ i, ciStartsWith openTag ((a ++ (openTag ++ b)).drop i) = true →
      i = a.length := by
    intro i hm
    by_cases hi : i < (a ++ (openTag ++ b)).length
    · exact honce i hi hm
    · rw [List.drop_eq_nil_of_le (by omega)] at hm
      exact absurd hm (by rw [show openTag = '<' :: str "think>" from rfl,
        ciStartsWith_nil_false]; simp)
  have hnoclose' : NoCIMatch closeTag (a ++ (openTag ++ b)) :=
    noCIMatch_of_bounded (by decide) hnoclose
  have hrt := removeThinkTags_span a b honce' hnoclose'
  simp only [formatForVoice, hflag, if_true, hrt]

/-- Claim C1 witness: a concrete text whose sanitization drops the
unterminated span and coincides with sanitizing the preceding text. -/
theorem c1_unterminated_span_witness :
    formatForVoice DEFAULT_VOICE_CONFIG
        (str "halo " ++ (openTag ++ str "rahasia")) =
      formatForVoice DEFAULT_VOICE_CONFIG (str "halo ") :=
  c1_unterminated_span DEFAULT_VOICE_CONFIG (str "halo ") (str "rahasia") rfl
    (by decide) (by decide)

/-- Claim C2: `validateResponse` adds the `AppearsTruncated` issue if and only
if the raw string is longer than 50 (UTF-16) characters, does not end with
sentence-final punctuation, and the `<think>` / `</think>` match counts
differ; in particular a response that merely lacks trailing punctuation but
has balanced markers is never flagged. -/
theorem c2_appearsTruncated_iff (r : List Char) :
    Issue.appearsTruncated ∈ (validateResponse r).issues ↔
      jsLength r > 50 ∧ hasProperEnding r = false ∧
        jsCount openTag r ≠ jsCount closeTag r := by
  rw [validateResponse_issues]
  simp only [List.mem_append, List.mem_ite_nil_right, List.mem_singleton]
  constructor
  · rintro ((⟨-, h⟩ | ⟨-, h⟩) | ⟨h, -⟩)
    · exact absurd h (by decide)
    · exact absurd h (by decide)
    · exact h
  · intro h
    exact Or.inr ⟨h, trivial⟩

/-- Claim C3: with a successful primary call, `sendMessage` issues exactly one
retry through `sendSimpleMessage` iff validation reported the incomplete
`<think>`-tags issue or the non-Indonesian-characters issue (never when the
only issue is apparent truncation); there is never a second retry, the retry's
result is returned as-is, a failed retry yields the fixed fallback greeting
with `success := false`, and a failed primary call issues no retry at all. -/
theorem c3_retry_policy (ctx : List Int) (resp : List Char)
    (octx : Option (List Int)) (retry : BackendReply) :
    ((sendMessage ctx (.ok ⟨resp, octx⟩) retry).retryCalls = 1 ↔
      Issue.incompleteThinkTags ∈ (validateResponse resp).issues ∨
      Issue.nonIndonesianChars ∈ (validateResponse resp).issues) ∧
    (sendMessage ctx (.ok ⟨resp, octx⟩) retry).retryCalls ≤ 1 ∧
    ((validateResponse resp).issues = [Issue.appearsTruncated] →
      (sendMessage ctx (.ok ⟨resp, octx⟩) retry).retryCalls = 0) ∧
    ((sendMessage ctx (.ok ⟨resp, octx⟩) retry).retryCalls = 1 →
      (sendMessage ctx (.ok ⟨resp, octx⟩) retry).reply =
        (sendSimpleMessage (octx.getD ctx) retry).2) ∧
    ((sendMessage ctx (.ok ⟨resp, octx⟩) retry).retryCalls = 1 → retry = .err →
      (sendMessage ctx (.ok ⟨resp, octx⟩) retry).reply =
        { message := fallbackGreeting, success := false }) ∧
    (sendMessage ctx .err retry).retryCalls = 0 := by
  rw [sendMessage_ok]
  by_cases hs : seriousIssues (validateResponse resp) = true
  · rw [if_pos hs]
    refine ⟨?_, by simp, ?_, ?_, ?_, rfl⟩
    · simpa using (seriousIssues_validate resp).mp hs
    · intro honly
      have := (seriousIssues_validate resp).mp hs
      rw [honly] at this
      rcases this with h | h <;> simp at h
    · intro _; rfl
    · rintro _ rfl; rfl
  · rw [if_neg hs]
    refine ⟨?_, by simp, fun _ => rfl, by simp, by simp, rfl⟩
    constructor
    · intro h; simp at h
    · intro h
      exact absurd ((seriousIssues_validate resp).mpr h) hs

/-- Claim C3 witness: a concrete instantiation with a primary response whose
validation reports the incomplete-`<think>`-tags issue and a failed retry. -/
theorem c3_retry_policy_witness :
    ((sendMessage [] (.ok ⟨str "<think>abc", none⟩) .err).retryCalls = 1 ↔
      Issue.incompleteThinkTags ∈ (validateResponse (str "<think>abc")).issues ∨
      Issue.nonIndonesianChars ∈ (validateResponse (str "<think>abc")).issues) ∧
    (sendMessage [] (.ok ⟨str "<think>abc", none⟩) .err).retryCalls ≤ 1 ∧
    ((validateResponse (str "<think>abc")).issues = [Issue.appearsTruncated] →
      (sendMessage [] (.ok ⟨str "<think>abc", none⟩) .err).retryCalls = 0) ∧
    ((sendMessage [] (.ok ⟨str "<think>abc", none⟩) .err).retryCalls = 1 →
      (sendMessage [] (.ok ⟨str "<think>abc", none⟩) .err).reply =
        (sendSimpleMessage ((none : Option (List Int)).getD []) .err).2) ∧
    ((sendMessage [] (.ok ⟨str "<think>abc", none⟩) .err).retryCalls = 1 →
      (.err : BackendReply) = .err →
      (sendMessage [] (.ok ⟨str "<think>abc", none⟩) .err).reply =
        { message := fallbackGreeting, success := false }) ∧
    (sendMessage [] .err .err).retryCalls = 0 :=
  c3_retry_policy [] (str "<think>abc") none .err

/-- Claim C4 counterexample: a primary response with three `<think>` markers
and one `</think>` marker does flag the issue and does trigger exactly one
retry, but the text finally returned to the caller is the retry's cleaned
response, which still contains a `<think>` start marker when the retry's raw
response does — refuting "the final returned text never contains a `<think>`
start marker". -/
theorem c4_counterexample :
    jsCount openTag (str "<think>a</think><think>b<think>c") = 3 ∧
    jsCount closeTag (str "<think>a</think><think>b<think>c") = 1 ∧
    (sendMessage [] (.ok ⟨str "<think>a</think><think>b<think>c", none⟩)
      (.ok ⟨str "<think>halo", none⟩)).retryCalls = 1 ∧
    0 < jsCount openTag
      (sendMessage [] (.ok ⟨str "<think>a</think><think>b<think>c", none⟩)
        (.ok ⟨str "<think>halo", none⟩)).reply.message := by
  refine ⟨by decide, by decide, by decide, by decide⟩

/-- Claim C4 (amended): for every raw primary output with three `<think>`
markers and one `</think>` marker, `sendMessage` flags the unterminated-span
issue and issues exactly one retry, and the reply returned to the caller is
exactly the retry call's result (the fallback greeting on retry failure, or
the retry's response cleaned only of non-Latin-1 characters — which may
itself still contain a `<think>` marker). -/
theorem c4_three_one_retry (ctx : List Int) (resp : List Char)
    (octx : Option (List Int)) (retry : BackendReply)
    (h3 : jsCount openTag resp = 3) (h1 : jsCount closeTag resp = 1) :
    Issue.incompleteThinkTags ∈ (validateResponse resp).issues ∧
    (sendMessage ctx (.ok ⟨resp, octx⟩) retry).retryCalls = 1 ∧
    (sendMessage ctx (.ok ⟨resp, octx⟩) retry).reply =
      (sendSimpleMessage (octx.getD ctx) retry).2 := by
  have hmem : Issue.incompleteThinkTags ∈ (validateResponse resp).issues := by
    rw [validateResponse_issues]
    simp only [List.mem_append, List.mem_ite_nil_right, List.mem_singleton]
    exact Or.inl (Or.inl ⟨by rw [h3, h1]; decide, trivial⟩)
  have hs : seriousIssues (validateResponse resp) = true :=
    (seriousIssues_validate resp).mpr (Or.inl hmem)
  rw [sendMessage_ok, if_pos hs]
  exact ⟨hmem, rfl, rfl⟩

/-- Claim C4 witness: the amended statement instantiated at a concrete
three-opener response with a successful retry. -/
theorem c4_three_one_retry_witness :
    Issue.incompleteThinkTags ∈
      (validateResponse (str "<think>a</think><think>b<think>c")).issues ∧
    (sendMessage [] (.ok ⟨str "<think>a</think><think>b<think>c", none⟩)
      (.ok ⟨str "halo", none⟩)).retryCalls = 1 ∧
    (sendMessage [] (.ok ⟨str "<think>a</think><think>b<think>c", none⟩)
      (.ok ⟨str "halo", none⟩)).reply =
      (sendSimpleMessage ((none : Option (List Int)).getD []) (.ok ⟨str "halo", none⟩)).2 :=
  c4_three_one_retry [] (str "<think>a</think><think>b<think>c") none
    (.ok ⟨str "halo", none⟩) (by decide) (by decide)

/-- Claim C8: the stored continuation token is never sent in a retry request
(the fallback request body carries no `context` field), `sendSimpleMessage`
leaves the stored token unchanged and ignores the retry reply's own token,
and the token `sendMessage` ends with comes from the primary response alone
(unchanged on primary failure). -/
theorem c8_context_isolation (ctx : List Int) (reply : BackendReply)
    (resp : List Char) (c c' : Option (List Int)) (octx : Option (List Int)) :
    simpleRequestContext = none ∧
    (sendSimpleMessage ctx reply).1 = ctx ∧
    sendSimpleMessage ctx (.ok ⟨resp, c⟩) = sendSimpleMessage ctx (.ok ⟨resp, c'⟩) ∧
    (sendMessage ctx (.ok ⟨resp, octx⟩) reply).ctx = octx.getD ctx ∧
    (sendMessage ctx .err reply).ctx = ctx := by
  refine ⟨rfl, sendSimpleMessage_fst ctx reply, rfl, ?_, rfl⟩
  rw [sendMessage_ok]
  by_cases hs : seriousIssues (validateResponse resp) = true
  · rw [if_pos hs]
    exact sendSimpleMessage_fst _ reply
  · rw [if_neg hs]

/-- Claim C9: `validateResponse` is total by construction (it is a Lean
function defined on every string, returning a `ValidationResult` with issue
flags on all paths), and its `cleaned` field is never empty: whenever cleanup
leaves the empty string or the bare role-prefix artifact `"Asistenqu:"`, the
fixed clarification phrase is substituted. -/
theorem c9_cleaned_nonempty (r : List Char) :
    (validateResponse r).cleaned ≠ [] ∧
    ((preCleaned r = [] ∨ preCleaned r = rolePrefixArtifact) →
      (validateResponse r).cleaned = clarifyFallback) := by
  rw [validateResponse_cleaned]
  by_cases h : preCleaned r = [] ∨ preCleaned r = rolePrefixArtifact
  · rw [if_pos h]
    exact ⟨by decide, fun _ => rfl⟩
  · rw [if_neg h]
    push_neg at h
    exact ⟨h.1, fun hc => absurd hc (by push_neg; exact h)⟩

/-- Claim C9 witness: a response whose cleanup leaves nothing (a lone
unterminated `<think>` opener) receives the clarification fallback. -/
theorem c9_cleaned_nonempty_witness :
    (validateResponse (str "<think>abc")).cleaned ≠ [] ∧
    (validateResponse (str "<think>abc")).cleaned = clarifyFallback :=
  ⟨(c9_cleaned_nonempty (str "<think>abc")).1,
    (c9_cleaned_nonempty (str "<think>abc")).2 (Or.inl (by decide))⟩

/-- Claim C5: whenever a maximum length `n ≥ 1` is configured, the sanitized
text is at most `n + 1` UTF-16 units long (ε = 1: the sentence stage's length
check omits the joining space, and the word fallback appends a period after
filling up to `n`); the sentence, word, and hard-truncation stages each
respect this bound. -/
theorem c5_length_bound (cfg : VoiceFormatterConfig) (x : List Char) (n : Nat)
    (hm : cfg.maxLength = some n) (h1 : 1 ≤ n) :
    jsLength (formatForVoice cfg x) ≤ n + 1 := by
  simp only [formatForVoice, hm]
  have hne : ¬ n = 0 := by omega
  rw [if_neg hne]
  exact le_trans (jsLength_trimJS_le _) (limitLength_le _ _)

/-- Claim C5 witness: the bound instantiated at `maxLength 5` on a concrete
overlong input. -/
theorem c5_length_bound_witness :
    jsLength (formatForVoice ⟨true, true, true, true, true, some 5⟩
      (str "aaaa aaa bbbb")) ≤ 5 + 1 :=
  c5_length_bound ⟨true, true, true, true, true, some 5⟩ (str "aaaa aaa bbbb")
    5 rfl (by norm_num)

/-- Claim C6: `isVoiceSuitable` returns false exactly when the
default-config sanitized text is empty (the sanitizer's output is already
trimmed, so empty and whitespace-only coincide) or readable characters (word
characters, whitespace and `. , ! ?`) make up at most half its length; in
particular the empty string and a pure reasoning span are unsuitable. -/
theorem c6_suitability (t : List Char) :
    (isVoiceSuitable t = false ↔
      formatForVoice DEFAULT_VOICE_CONFIG t = [] ∨
      2 * jsLength ((formatForVoice DEFAULT_VOICE_CONFIG t).filter readableChar) ≤
        jsLength (formatForVoice DEFAULT_VOICE_CONFIG t)) ∧
    isVoiceSuitable (str "") = false ∧
    isVoiceSuitable (str "<think>only reasoning</think>") = false := by
  refine ⟨?_, by decide, by decide⟩
  simp only [isVoiceSuitable, isSuitableForVoice]
  rw [formatForVoice_trimmed]
  by_cases hf : formatForVoice DEFAULT_VOICE_CONFIG t = []
  · rw [if_pos hf]
    simp [hf]
  · rw [if_neg hf]
    have hpos := jsLength_pos _ hf
    rw [decide_eq_true hpos, Bool.true_and, decide_eq_false_iff_not, not_lt]
    constructor
    · intro h
      exact Or.inr h
    · rintro (h | h)
      · exact absurd h hf
      · exact h

/-- Claim C10: every configuration an `APIClient` can hold — stored by the
constructor or by `updateConfig`, both of which clamp through
`validateConfig` — satisfies `maxTokens ≥ 1500` and
`0.1 ≤ temperature ≤ 1.2`, for the lifetime of the client. -/
theorem c10_config_invariant (cfg : AIConfig) (h : ConfigReachable cfg) :
    1500 ≤ cfg.maxTokens ∧
    (1/10 : ℚ) ≤ cfg.temperature ∧ cfg.temperature ≤ 12/10 := by
  induction h with
  | constructed config =>
    exact ⟨le_max_right _ _,
      le_min (le_max_right _ _) (by norm_num), min_le_right _ _⟩
  | updated config prev _ _ =>
    exact ⟨le_max_right _ _,
      le_min (le_max_right _ _) (by norm_num), min_le_right _ _⟩

/-- Claim C10 witness: a client constructed with an out-of-range
configuration (`temperature 5`, `maxTokens 100`) still satisfies the stored
invariant. -/
theorem c10_config_invariant_witness :
    1500 ≤ (validateConfig ⟨5, 100⟩).maxTokens ∧
    (1/10 : ℚ) ≤ (validateConfig ⟨5, 100⟩).temperature ∧
    (validateConfig ⟨5, 100⟩).temperature ≤ 12/10 :=
  c10_config_invariant (validateConfig ⟨5, 100⟩)
    (ConfigReachable.constructed ⟨5, 100⟩)

end Asistenku
